import Mathlib

/-!
Verification development for tab_to_notes.py: an ASCII guitar-tab to
note-name converter.  The Python source is embedded shallowly: Python
strings become lists of characters, dictionaries become association
lists in insertion order (Python 3.7+ dicts preserve insertion order),
and code that can raise (KeyError / IndexError / unbound local) is
modelled with Option, none standing for the raised exception.
-/

namespace TabToNotes

set_option maxHeartbeats 1000000

/-- Python strings are modelled as lists of characters. -/
abbrev PyStr := List Char

/-! ## Python string primitives used by the source -/

/-- Python str.upper for the ASCII range (the source only upper-cases
note labels such as "e4", "bb3"). -/
def pyUpper (s : PyStr) : PyStr := s.map Char.toUpper

/-- Python str.isnumeric restricted to ASCII input: non-empty and all
decimal digits (fret values in a tab are ASCII digit runs). -/
def pyIsNumeric (s : PyStr) : Bool := !s.isEmpty && s.all Char.isDigit

/-- Python int(s) on a non-empty decimal-digit string. -/
def natOfDigits (s : PyStr) : Nat := s.foldl (fun a c => a * 10 + (c.toNat - 48)) 0

/-- Decimal rendering of a natural number, fuelled so that the
definition is structural (and hence evaluates inside the kernel); the
fuel argument is immaterial as long as it exceeds n. -/
def natReprAux : Nat → Nat → PyStr
  | 0, _ => []
  | fuel + 1, n =>
    if n < 10 then [Char.ofNat (48 + n)]
    else natReprAux fuel (n / 10) ++ [Char.ofNat (48 + n % 10)]

/-- Decimal rendering of a natural number, Python str(n). -/
def natRepr (n : Nat) : PyStr := natReprAux (n + 1) n

/-- Decimal rendering of an integer, Python str(i). -/
def intRepr (i : Int) : PyStr :=
  if i < 0 then '-' :: natRepr (-i).toNat else natRepr i.toNat

/-- Python str.strip (whitespace from both ends). -/
def pyStrip (s : PyStr) : PyStr :=
  ((s.dropWhile Char.isWhitespace).reverse.dropWhile Char.isWhitespace).reverse

/-- Python `pat in s` substring test. -/
def pyContains (s pat : PyStr) : Bool := (s.tails).any (fun t => pat.isPrefixOf t)

/-- Fuelled worker for pyReplace; each step strictly shortens the
string, so fuel = length of the string suffices. -/
def pyReplaceAux : Nat → PyStr → PyStr → PyStr → PyStr
  | _, [], _, _ => []
  | 0, s, _, _ => s
  | fuel + 1, a :: as, pat, rep =>
    if pat ≠ [] ∧ pat.isPrefixOf (a :: as) then
      rep ++ pyReplaceAux fuel ((a :: as).drop pat.length) pat rep
    else
      a :: pyReplaceAux fuel as pat rep

/-- Python str.replace(pat, rep) for a non-empty pattern: replace all
non-overlapping occurrences, scanning left to right.  (For pat = []
this is the identity; the source only ever passes str(int), which is
non-empty.) -/
def pyReplace (s pat rep : PyStr) : PyStr := pyReplaceAux s.length s pat rep

/-- Python s.split(pat, 1) for a non-empty pattern, when pat occurs in
s: returns the text before and after the first occurrence.  none when
the pattern does not occur (the source only takes the second field
after guarding with `pat in s`) or when the pattern is empty (Python
raises ValueError on an empty separator). -/
def pySplitFirst (s pat : PyStr) : Option (PyStr × PyStr) :=
  match s with
  | [] => none
  | a :: as =>
    if pat ≠ [] ∧ pat.isPrefixOf (a :: as) then
      some ([], (a :: as).drop pat.length)
    else
      (pySplitFirst as pat).map (fun p => (a :: p.1, p.2))

/-- Python s.split(pat)[0]: the text before the first occurrence of the
separator, or the whole string when the separator is absent. -/
def pySplitHead (s pat : PyStr) : PyStr :=
  match pySplitFirst s pat with
  | some p => p.1
  | none => s

/-- Lexicographic order on strings by character code, Python's `<` on
str (used through sorted(...) in the legend builder). -/
def pyStrLe : PyStr → PyStr → Bool
  | [], _ => true
  | _ :: _, [] => false
  | a :: as, b :: bs =>
    if a.toNat < b.toNat then true
    else if b.toNat < a.toNat then false
    else pyStrLe as bs

/-! ## Association-list dictionaries (Python dict, insertion ordered) -/

/-- Python dict lookup d[k] for string keys; none models KeyError. -/
def lookupStr (table : List (PyStr × Nat)) (key : PyStr) : Option Nat :=
  (table.find? (fun p => p.1 == key)).map Prod.snd

/-- Python dict lookup d[k] for Nat keys; none models KeyError. -/
def lookupNat (table : List (Nat × PyStr)) (key : Nat) : Option PyStr :=
  (table.find? (fun p => p.1 == key)).map Prod.snd

/-- Python dict assignment d[k] = v: overwrite in place if the key is
present (keeping its position in insertion order), else append. -/
def dictAssignStr (d : List (PyStr × PyStr)) (key v : PyStr) : List (PyStr × PyStr) :=
  if d.any (fun p => p.1 == key) then
    d.map (fun p => if p.1 == key then (key, v) else p)
  else d ++ [(key, v)]

/-- Python set.add on a set modelled as a duplicate-free list in
first-insertion order. -/
def setAdd (s : List PyStr) (x : PyStr) : List PyStr :=
  if x ∈ s then s else s ++ [x]

/-- Adding several elements to a set (used for used_chord_types). -/
def setAddAll (s : List PyStr) (xs : List PyStr) : List PyStr := xs.foldl setAdd s

/-! ## Global tables (source lines 11-41) -/

/-- TRANSPOSING_TABLE, source lines 11-16. -/
def TRANSPOSING_TABLE : List (PyStr × Nat) :=
  [("Bb".toList, 2), ("Eb".toList, 9), ("F".toList, 7), ("A".toList, 3)]

/-- NOTES_SHARPS, source lines 18-19. -/
def NOTES_SHARPS : List (PyStr × Nat) :=
  [("C".toList, 0), ("C#".toList, 1), ("D".toList, 2), ("D#".toList, 3),
   ("E".toList, 4), ("F".toList, 5), ("F#".toList, 6), ("G".toList, 7),
   ("G#".toList, 8), ("A".toList, 9), ("A#".toList, 10), ("B".toList, 11)]

/-- NOTES_FLATS, source lines 21-22. -/
def NOTES_FLATS : List (PyStr × Nat) :=
  [("C".toList, 0), ("Db".toList, 1), ("D".toList, 2), ("Eb".toList, 3),
   ("E".toList, 4), ("F".toList, 5), ("Gb".toList, 6), ("G".toList, 7),
   ("Ab".toList, 8), ("A".toList, 9), ("Bb".toList, 10), ("B".toList, 11)]

/-- SHARP_NAMES, source line 24: the inverted sharps table. -/
def SHARP_NAMES : List (Nat × PyStr) := NOTES_SHARPS.map (fun p => (p.2, p.1))

/-- FLAT_NAMES, source line 25: the inverted flats table. -/
def FLAT_NAMES : List (Nat × PyStr) := NOTES_FLATS.map (fun p => (p.2, p.1))

/-- CHORD_ABBREVIATIONS, source lines 28-41: full name to
(abbreviation, description). -/
def CHORD_ABBREVIATIONS : List (PyStr × (PyStr × PyStr)) :=
  [("unison".toList, ("1".toList, "Unison (same note)".toList)),
   ("minor 2nd".toList, ("m2".toList, "Minor second".toList)),
   ("major 2nd".toList, ("M2".toList, "Major second".toList)),
   ("minor 3rd".toList, ("m3".toList, "Minor third".toList)),
   ("major 3rd".toList, ("M3".toList, "Major third".toList)),
   ("perfect 4th".toList, ("P4".toList, "Perfect fourth".toList)),
   ("tritone".toList, ("TT".toList, "Tritone (augmented 4th/diminished 5th)".toList)),
   ("perfect 5th".toList, ("P5".toList, "Perfect fifth (Power chord)".toList)),
   ("minor 6th".toList, ("m6".toList, "Minor sixth".toList)),
   ("major 6th".toList, ("M6".toList, "Major sixth".toList)),
   ("minor 7th".toList, ("m7".toList, "Minor seventh".toList)),
   ("major 7th".toList, ("M7".toList, "Major seventh".toList))]

/-! ## Settings (source lines 614-632) -/

/-- The settings dictionary built in main (source lines 614-632),
as an immutable record. -/
structure Settings where
  chord_start : PyStr
  chord_end : PyStr
  chord_separator : PyStr
  add_space : Bool
  transpose : Int
  write_sharps : Bool
  write_flats : Bool
  write_techniques : Bool
  write_octaves : Bool
  chord_analysis : Bool
  tuning_separator : PyStr
  tuning : List (Nat × PyStr)

/-- The settings produced by main with no command-line flags given:
transpose 0, sharps, octaves and techniques on, chord analysis off,
separator "|", standard tuning (source lines 604-632). -/
def defaultSettings : Settings where
  chord_start := "[".toList
  chord_end := "]".toList
  chord_separator := "_".toList
  add_space := false
  transpose := 0
  write_sharps := true
  write_flats := false
  write_techniques := true
  write_octaves := true
  chord_analysis := false
  tuning_separator := "|".toList
  tuning := [(1, "E4".toList), (2, "B3".toList), (3, "G3".toList),
             (4, "D3".toList), (5, "A3".toList), (6, "E2".toList)]

/-! ## Tokenizer (source lines 82-96 and 147-162) -/

/-- A token of one tab line: fret digits or a technique marker, with
its 0-based start column, inclusive end column, width and raw text
(the dict built at source lines 90-95 / 155-160). -/
structure Fret where
  value : PyStr
  start : Nat
  endp : Nat
  width : Nat
deriving DecidableEq, Repr

/-- Is position s the start of a maximal run of characters satisfying
p?  (The character at s satisfies p, and s is either 0 or preceded by
a character that does not.)  This is where re.finditer matches begin. -/
def isRunStart (p : Char → Bool) (ln : PyStr) (s : Nat) : Bool :=
  (ln[s]?.elim false p) &&
    (s == 0 || (ln[s - 1]?.elim false (fun c => !p c)))

/-- The token for the maximal run of p-characters starting at s. -/
def tokenAt (p : Char → Bool) (ln : PyStr) (s : Nat) : Fret :=
  let text := (ln.drop s).takeWhile p
  { value := text, start := s, endp := s + text.length - 1, width := text.length }

/-- All matches of a maximal-run regular expression (re.finditer with
pattern "X+" for a character class X), left to right, keyed by match
start: the semantics of the finditer loops at source lines 89 and 153. -/
def findallRuns (p : Char → Bool) (ln : PyStr) : List (Nat × Fret) :=
  (List.range ln.length).filterMap (fun s =>
    if isRunStart p ln s then some (s, tokenAt p ln s) else none)

/-- fretsFromLine, source lines 82-96: the maximal digit runs of the
line (re.finditer of the regex digit-plus), keyed by start column. -/
def fretsFromLine (ln : PyStr) : List (Nat × Fret) := findallRuns Char.isDigit ln

/-- The character class of the technique regex at source line 153,
which is the regex character class not-of hyphen, digit, plus: note
that the '+' written inside the brackets is a literal plus sign, so
plus characters are excluded from technique tokens. -/
def techChar (c : Char) : Bool := !(c == '-') && !c.isDigit && !(c == '+')

/-- addTechniquesFromLine, source lines 147-162: add each maximal
techChar run whose start column is not already a key of the fret dict. -/
def addTechniquesFromLine (ln : PyStr) (fret_position_dict : List (Nat × Fret)) :
    List (Nat × Fret) :=
  (findallRuns techChar ln).foldl
    (fun d sp => if d.any (fun q => q.1 == sp.1) then d else d ++ [sp])
    fret_position_dict

/-! ## Pitch resolver: GetNote (source lines 164-195) -/

/-- The base octave extracted from a string label, source lines
172-176: concatenate the digit characters; 0 when there are none. -/
def baseOctaveOf (stringNote : PyStr) : Nat :=
  let digits := stringNote.filter Char.isDigit
  if digits.isEmpty then 0 else natOfDigits digits

/-- The open-string semitone class, source lines 178-179: look the
label up in NOTES_SHARPS after upper-casing it and deleting every
occurrence of str(base_octave); none models the KeyError of the
unguarded dict access. -/
def baseNoteOf (stringNote : PyStr) : Option Nat :=
  lookupStr NOTES_SHARPS
    (pyReplace (pyUpper stringNote) (natRepr (baseOctaveOf stringNote)) [])

/-- noteNum, source line 180: open pitch class + fret + transpose. -/
def noteNumOf (stringNote fretNum : PyStr) (st : Settings) : Option Int :=
  (baseNoteOf stringNote).map
    (fun b : Nat => (b : Int) + (natOfDigits fretNum : Int) + st.transpose)

/-- fretNoteNum, source line 181: noteNum mod 12 (Python % on ints,
which for a positive modulus lands in 0..11). -/
def fretNoteNumOf (stringNote fretNum : PyStr) (st : Settings) : Option Nat :=
  (noteNumOf stringNote fretNum st).map (fun n : Int => (n % 12).toNat)

/-- octave, source line 182: math.floor(noteNum / 12) + base_octave
(floor division, Int.fdiv). -/
def octaveOf (stringNote fretNum : PyStr) (st : Settings) : Option Int :=
  (noteNumOf stringNote fretNum st).map
    (fun n : Int => n.fdiv 12 + (baseOctaveOf stringNote : Int))

/-- The pitch-class name chosen at source lines 184-187: the two
independent if-statements mean flats win when both flags are set, and
none models the unbound local `name` when neither flag is set. -/
def renderName (st : Settings) (pc : Nat) : Option PyStr :=
  if st.write_flats then lookupNat FLAT_NAMES pc
  else if st.write_sharps then lookupNat SHARP_NAMES pc
  else none

/-- The add_space suffix, source lines 191-193: append a space when
the name holds neither '#' nor 'b'. -/
def addSpaceSuffix (st : Settings) (name : PyStr) : PyStr :=
  if st.add_space && !(name.contains '#' || name.contains 'b') then name ++ [' ']
  else name

/-- GetNote, source lines 164-195: pass a non-numeric fret value
through unchanged, otherwise resolve it to a pitch name, appending the
octave when write_octaves is set.  none models a raised KeyError /
unbound local. -/
def GetNote (stringNote fretNum : PyStr) (st : Settings) : Option PyStr :=
  if !pyIsNumeric fretNum then some fretNum
  else
    match fretNoteNumOf stringNote fretNum st, octaveOf stringNote fretNum st with
    | some pc, some octave =>
      (renderName st pc).map (fun name =>
        addSpaceSuffix st (if st.write_octaves then name ++ intRepr octave else name))
    | _, _ => none

/-- The table dispatch of get_note_number, source lines 204-209: try
the sharps table and then the flats table. -/
def gnnLookup (clean_note : PyStr) : Option Nat :=
  match lookupStr NOTES_SHARPS clean_note with
  | some n => some n
  | none => lookupStr NOTES_FLATS clean_note

/-- get_note_number, source lines 197-209: strip the digits, then try
the sharps table and the flats table in that order. -/
def get_note_number (note_name : PyStr) : Option Nat :=
  gnnLookup (note_name.filter (fun c => !c.isDigit))

/-! ## Chord / interval classifier (source lines 211-317) -/

/-- The interval_names dict of analyze_interval, source lines 243-256. -/
def interval_names : List (Nat × PyStr) :=
  [(0, "unison".toList), (1, "minor 2nd".toList), (2, "major 2nd".toList),
   (3, "minor 3rd".toList), (4, "major 3rd".toList), (5, "perfect 4th".toList),
   (6, "tritone".toList), (7, "perfect 5th".toList), (8, "minor 6th".toList),
   (9, "major 6th".toList), (10, "minor 7th".toList), (11, "major 7th".toList)]

/-- The tail of analyze_interval, source lines 258-262: return the
catalogued abbreviation of the interval name when there is one, else
the name itself. -/
def abbrevOrName (interval_name : PyStr) : List PyStr :=
  match (CHORD_ABBREVIATIONS.find? (fun p => p.1 == interval_name)).map Prod.snd with
  | some ad => [ad.1]
  | none => [interval_name]

/-- analyze_interval, source lines 237-262: name the ascending
distance between the two sorted pitch classes, replaced by its
catalogued abbreviation when there is one.  none models the
IndexError on an input with fewer than two elements. -/
def analyze_interval (note_nums : List Nat) : Option (List PyStr) :=
  match note_nums with
  | a :: b :: _ =>
    let interval : Nat := (((b : Int) - (a : Int)) % 12).toNat
    let interval_name :=
      match lookupNat interval_names interval with
      | some nm => nm
      | none => "interval(".toList ++ natRepr interval ++ ")".toList
    some (abbrevOrName interval_name)
  | _ => none

/-- The interval-abbreviation dict of the analyze_triad fallback,
source lines 310-313. -/
def fallback_interval_names : List (Nat × PyStr) :=
  [(1, "m2".toList), (2, "M2".toList), (3, "m3".toList), (4, "M3".toList),
   (5, "P4".toList), (6, "TT".toList), (7, "P5".toList), (8, "m6".toList),
   (9, "M6".toList), (10, "m7".toList), (11, "M7".toList)]

/-- The sorted interval multiset of all other classes measured from a
candidate root, source lines 272-276. -/
def intervalsFrom (note_nums : List Nat) (root : Nat) : List Nat :=
  ((note_nums.filter (fun note => note ≠ root)).map
      (fun note : Nat => (((note : Int) - (root : Int)) % 12).toNat)).insertionSort (· ≤ ·)

/-- The body of the root loop of analyze_triad, source lines 271-294:
look up the root name in SHARP_NAMES (an unguarded access, none models
the KeyError) and append the first matching pattern, if any. -/
def triadLoopStep (note_nums : List Nat) (results : List PyStr) (root : Nat) :
    Option (List PyStr) :=
  let intervals := intervalsFrom note_nums root
  match lookupNat SHARP_NAMES root with
  | none => none
  | some root_name =>
    if 3 ∈ intervals ∧ 7 ∈ intervals then some (results ++ [root_name ++ "m".toList])
    else if 4 ∈ intervals ∧ 7 ∈ intervals then some (results ++ [root_name ++ "maj".toList])
    else if 3 ∈ intervals ∧ 6 ∈ intervals then some (results ++ [root_name ++ "dim".toList])
    else if 4 ∈ intervals ∧ 8 ∈ intervals then some (results ++ [root_name ++ "aug".toList])
    else if 7 ∈ intervals ∧ intervals.length = 1 then some (results ++ [root_name ++ "5".toList])
    else if 4 ∈ intervals ∧ intervals.length = 1 then some (results ++ [root_name ++ "(M3)".toList])
    else if 3 ∈ intervals ∧ intervals.length = 1 then some (results ++ [root_name ++ "(m3)".toList])
    else some results

/-- The fallback of analyze_triad when no root matched, source lines
297-315: sus4 / sus2 from the lowest note, else a generic label
listing the intervals from the lowest note. -/
def triadFallback (note_nums : List Nat) : Option (List PyStr) :=
  match note_nums with
  | [] => none
  | n0 :: rest =>
    (lookupNat SHARP_NAMES n0).bind (fun root_name =>
      let intervals := rest.map (fun note : Nat => (((note : Int) - (n0 : Int)) % 12).toNat)
      if 5 ∈ intervals ∧ 7 ∈ intervals then some [root_name ++ "sus4".toList]
      else if 2 ∈ intervals ∧ 7 ∈ intervals then some [root_name ++ "sus2".toList]
      else
        let interval_abbrevs := intervals.map (fun interval =>
          match lookupNat fallback_interval_names interval with
          | some ab => ab
          | none => natRepr interval)
        some [root_name ++ "(".toList ++
              List.intercalate ("+".toList) interval_abbrevs ++ ")".toList])

/-- analyze_triad, source lines 264-317: try every note as candidate
root in list order, collecting the first matching pattern per root;
fall back to sus / generic labelling from the lowest note when no root
matched. -/
def analyze_triad (note_nums : List Nat) : Option (List PyStr) := do
  let results ← note_nums.foldlM (triadLoopStep note_nums) []
  if results.isEmpty then triadFallback note_nums else some results

/-- The deduplicating pitch-class collection loop of analyze_chord,
source lines 220-224: resolvable notes only, first-seen order. -/
def collectNoteNums (notes : List PyStr) : List Nat :=
  notes.foldl (fun acc note =>
    match get_note_number note with
    | some num => if num ∈ acc then acc else acc ++ [num]
    | none => acc) []

/-- analyze_chord, source lines 211-235: empty result for an empty or
singleton input; otherwise dedupe, sort, and dispatch on the number of
distinct pitch classes. -/
def analyze_chord (notes : List PyStr) : Option (List PyStr) :=
  if notes.isEmpty || notes.length < 2 then some []
  else
    let note_nums := (collectNoteNums notes).insertionSort (· ≤ ·)
    if note_nums.length = 1 then some ["unison".toList]
    else if note_nums.length = 2 then analyze_interval note_nums
    else if 3 ≤ note_nums.length then analyze_triad note_nums
    else some []

/-! ## Timing grouper: group_by_timing (source lines 98-145) -/

/-- One element of the all_frets list, source lines 105-108:
(string label, dict key, token). -/
structure Entry where
  string_note : PyStr
  pos : Nat
  fret : Fret
deriving DecidableEq, Repr

/-- One member of a timing group, source line 134: (string label,
dict key, token, uncertain flag). -/
structure Member where
  string_note : PyStr
  pos : Nat
  fret : Fret
  uncertain : Bool
deriving DecidableEq, Repr

/-- The overlap / near-miss predicate of source lines 122-128: the two
inclusive column spans intersect (the set(range..) & set(range..)
test), or the start columns differ by at most 1, or the end columns
differ by at most 1. -/
def posOverlap (f e : Fret) : Bool :=
  (max f.start e.start ≤ min f.endp e.endp) ||
  (max f.start e.start - min f.start e.start ≤ 1) ||
  (max f.endp e.endp - min f.endp e.endp ≤ 1)

/-- The uncertain-alignment test of source lines 131-132, evaluated
against the first group member that satisfied the overlap test. -/
def uncertainFlag (f e : Fret) : Bool :=
  decide (f.start < e.start) && (f.width == 1) && decide (1 < e.width)

/-- Scan timing_groups in insertion order and add the entry to the
first group containing a member that overlaps it (the nested loops of
source lines 119-139, with their two breaks); none when no group
contains an overlapping member. -/
def joinFirstGroup (tgs : List (Nat × List Member)) (ent : Entry) :
    Option (List (Nat × List Member)) :=
  match tgs with
  | [] => none
  | (k, g) :: rest =>
    match g.find? (fun m => posOverlap ent.fret m.fret) with
    | some m =>
      some ((k, g ++ [⟨ent.string_note, ent.pos, ent.fret,
                      uncertainFlag ent.fret m.fret⟩]) :: rest)
    | none => (joinFirstGroup rest ent).map (fun r => (k, g) :: r)

/-- Python dict assignment timing_groups[pos] = [...] of source line
143: overwrite in place when the key exists, else append. -/
def dictAssignGroup (tgs : List (Nat × List Member)) (key : Nat) (g : List Member) :
    List (Nat × List Member) :=
  if tgs.any (fun p => p.1 == key) then
    tgs.map (fun p => if p.1 == key then (key, g) else p)
  else tgs ++ [(key, g)]

/-- One iteration of the outer loop of group_by_timing, source lines
115-143: join the first matching group, else open a new group keyed at
the entry's dict position with the uncertain flag False. -/
def groupStep (tgs : List (Nat × List Member)) (ent : Entry) :
    List (Nat × List Member) :=
  match joinFirstGroup tgs ent with
  | some tgs2 => tgs2
  | none => dictAssignGroup tgs ent.pos [⟨ent.string_note, ent.pos, ent.fret, false⟩]

/-- The all_frets list of source lines 105-108: every (string, key,
token) triple of the notedict, in dict iteration order. -/
def allFrets (notedict : List (PyStr × List (Nat × Fret))) : List Entry :=
  notedict.flatMap (fun p => p.2.map (fun q => ⟨p.1, q.1, q.2⟩))

/-- The comparison used by all_frets.sort(key=lambda x: x[1]),
source line 111. -/
def entryLe (a b : Entry) : Prop := a.pos ≤ b.pos

instance : DecidableRel entryLe := fun a b => Nat.decLe a.pos b.pos

/-- group_by_timing, source lines 98-145: sort all tokens by dict
position and greedily place each into the first matching timing group,
opening a new group when none matches. -/
def group_by_timing (notedict : List (PyStr × List (Nat × Fret))) :
    List (Nat × List Member) :=
  ((allFrets notedict).insertionSort entryLe).foldl groupStep []

/-! ## Tab-block formatter: format_notedict (source lines 336-415) -/

/-- extract_notes, source lines 319-334: tokenize every string's line
(adding techniques when enabled) and record the longest line length. -/
def extract_notes (tabdict : List (PyStr × PyStr)) (st : Settings) :
    List (PyStr × List (Nat × Fret)) × Nat :=
  (tabdict.map (fun p =>
      (p.1, if st.write_techniques then addTechniquesFromLine p.2 (fretsFromLine p.2)
            else fretsFromLine p.2)),
   tabdict.foldl (fun acc p => if p.2.length > acc then p.2.length else acc) 0)

/-- One iteration of the member loop of format_notedict, source lines
361-370: resolve the member's note, or in its uncertain flag, and add
the columns of its span to the covered set.  none models a GetNote
exception. -/
def clusterStep (st : Settings) (acc : List PyStr × Bool × List Nat) (m : Member) :
    Option (List PyStr × Bool × List Nat) :=
  match GetNote m.string_note m.fret.value st with
  | none => none
  | some note_name =>
    some (acc.1 ++ [note_name], acc.2.1 || m.uncertain,
          acc.2.2 ++ List.range' m.fret.start (m.fret.endp + 1 - m.fret.start))

/-- The member loop of format_notedict, source lines 361-370. -/
def clusterFold (st : Settings) (group : List Member) :
    Option (List PyStr × Bool × List Nat) :=
  group.foldlM (clusterStep st) ([], false, [])

/-- The per-cluster rendering of source lines 386-393: a bare string
for one note, a delimited bracketed group for several, and the
placeholder dash for a cluster with no members. -/
def renderChord (st : Settings) (chord : List PyStr) : PyStr :=
  if chord.length = 1 then chord.headD []
  else if 1 < chord.length then
    st.chord_start ++ List.intercalate st.chord_separator chord ++ st.chord_end
  else "-".toList

/-- The uncertainty marker of source lines 396-397: append a question
mark when some member of the cluster was flagged uncertain. -/
def addUncertainMark (is_uncertain : Bool) (chord_str : PyStr) : PyStr :=
  if is_uncertain then chord_str ++ "?".toList else chord_str

/-- The loop state of format_notedict (source lines 347-350). -/
structure FmtAcc where
  result : List PyStr
  chord_analysis : List PyStr
  used_chord_types : List PyStr
  covered_positions : List Nat
deriving Repr

/-- One iteration of the position loop of format_notedict, source
lines 352-399: skip positions already covered, resolve the cluster's
notes, optionally run the chord analysis, render, and mark the
cluster's span as covered. -/
def format_step (st : Settings) (tgs : List (Nat × List Member)) (acc : FmtAcc)
    (pos : Nat) : Option FmtAcc := do
  if pos ∈ acc.covered_positions then return acc
  let group ← (tgs.find? (fun p => p.1 == pos)).map Prod.snd
  let (chord, is_uncertain, newcov) ← clusterFold st group
  let (caList, usedList) ←
    if st.chord_analysis then do
      let analysis ← analyze_chord chord
      if !analysis.isEmpty then
        pure (acc.chord_analysis ++ [List.intercalate ("/".toList) (analysis.take 2)],
              setAddAll acc.used_chord_types (analysis.take 2))
      else
        pure (acc.chord_analysis ++ ["-".toList], acc.used_chord_types)
    else pure (acc.chord_analysis, acc.used_chord_types)
  let chord_str := addUncertainMark is_uncertain (renderChord st chord)
  pure { result := acc.result ++ [chord_str]
         chord_analysis := caList
         used_chord_types := usedList
         covered_positions := acc.covered_positions ++ newcov }

/-- format_notedict, source lines 336-415: group, then walk the group
keys in ascending order, and assemble the output lines.  Python
returns the bare line list when chord analysis is off and a
(lines, used-chord-types) pair when it is on; proces_tabdict
normalises both shapes to the pair, which is what we return. -/
def format_notedict (notedict : List (PyStr × List (Nat × Fret))) (_line_length : Nat)
    (st : Settings) : Option (List PyStr × List PyStr) := do
  let timing_groups := group_by_timing notedict
  let sorted_positions := (timing_groups.map Prod.fst).insertionSort (· ≤ ·)
  let acc ← sorted_positions.foldlM (format_step st timing_groups)
    ⟨[], [], [], []⟩
  let analysis_lines : List PyStr :=
    if st.chord_analysis && !acc.chord_analysis.isEmpty then
      [List.intercalate (" ".toList) acc.chord_analysis ++ "\n".toList]
    else []
  let note_line : PyStr :=
    "|".toList ++ List.intercalate ("--".toList) acc.result ++ "|".toList ++ "\n".toList
  pure (analysis_lines ++ [note_line], acc.used_chord_types)

/-- proces_tabdict, source lines 417-433: extract the tokens of one
tab block and format them (the isinstance dance of lines 422-432 only
normalises format_notedict's two return shapes). -/
def proces_tabdict (tabdict : List (PyStr × PyStr)) (st : Settings) :
    Option (List PyStr × List PyStr) :=
  let en := extract_notes tabdict st
  format_notedict en.1 en.2 st

/-! ## Legend builder: build_filtered_legend (source lines 43-80) -/

/-- Ordering used by Python sorted(...) on strings. -/
def pyStrLeProp (a b : PyStr) : Prop := pyStrLe a b = true

instance : DecidableRel pyStrLeProp := fun a b => instDecidableEqBool (pyStrLe a b) true

/-- Python sorted(xs) for a list of strings. -/
def pySortedStrs (xs : List PyStr) : List PyStr := xs.insertionSort pyStrLeProp

/-- Python sorted(set(xs)) for a list of strings: sort the distinct
elements. -/
def pySortedSet (xs : List PyStr) : List PyStr := pySortedStrs (xs.foldl setAdd [])

/-- The legend_items collection of source lines 50-56. -/
def legendItems (used_chord_types : List PyStr) : List PyStr :=
  used_chord_types.foldl (fun items ct =>
    CHORD_ABBREVIATIONS.foldl (fun items entry =>
      if pyContains ct entry.2.1 || pyContains ct entry.1 then
        items ++ [entry.2.1 ++ ": ".toList ++ entry.2.2]
      else items) items) []

/-- The chord_symbols collection of source lines 58-72. -/
def chordSymbols (used_chord_types : List PyStr) : List PyStr :=
  used_chord_types.foldl (fun syms ct =>
    let syms := if pyContains ct ("maj".toList) ∧ ("maj=Major".toList) ∉ syms then
        syms ++ ["maj=Major".toList] else syms
    let syms := if pyContains ct ("m".toList) ∧ ct ≠ ("maj".toList) ∧
        ("m=Minor".toList) ∉ syms then syms ++ ["m=Minor".toList] else syms
    let syms := if pyContains ct ("dim".toList) ∧ ("dim=Diminished".toList) ∉ syms then
        syms ++ ["dim=Diminished".toList] else syms
    let syms := if pyContains ct ("aug".toList) ∧ ("aug=Augmented".toList) ∉ syms then
        syms ++ ["aug=Augmented".toList] else syms
    let syms := if pyContains ct ("5".toList) ∧ ("5=Power chord".toList) ∉ syms then
        syms ++ ["5=Power chord".toList] else syms
    let syms := if pyContains ct ("sus".toList) ∧ ("sus=Suspended".toList) ∉ syms then
        syms ++ ["sus=Suspended".toList] else syms
    syms) []

/-- build_filtered_legend, source lines 43-80.  The Python iterates a
set, whose order is arbitrary; every piece of the result is either
order-insensitive (membership-guarded insertion) or normalised by
sorted(...), so iterating our insertion-ordered list is faithful. -/
def build_filtered_legend (used_chord_types : List PyStr) : PyStr :=
  if used_chord_types.isEmpty then []
  else
    let legend_items := legendItems used_chord_types
    let chord_symbols := chordSymbols used_chord_types
    let legend := "\n--- Chord/Interval Legend ---\n".toList
    let legend := if !legend_items.isEmpty then
        legend ++ List.intercalate ("\n".toList) (pySortedSet legend_items) ++ "\n".toList
      else legend
    let legend := if !chord_symbols.isEmpty then
        legend ++ "Chord symbols: ".toList ++
          List.intercalate (", ".toList) (pySortedStrs chord_symbols) ++ "\n".toList
      else legend
    legend

/-! ## Document driver: proces_doc (source lines 435-502) -/

/-- The loop state of proces_doc (source lines 441-446). -/
structure DocState where
  resultdoc : List PyStr
  all_used : List PyStr
  tab : Bool
  tabdict : List (PyStr × PyStr)
  string_nr : Nat
deriving Repr

/-- Flushing the current tab block, source lines 472-478 / 481-487 /
491-494: process the collected tabdict and reset the block state. -/
def flushTab (st : Settings) (s : DocState) : Option DocState := do
  let (tab_result, chord_types) ← proces_tabdict s.tabdict st
  pure { resultdoc := s.resultdoc ++ tab_result
         all_used := setAddAll s.all_used chord_types
         tab := false
         tabdict := []
         string_nr := 0 }

/-- The tab-line content extraction shared by both tab branches,
source lines 456-457 etc.: line.split(sep, 1)[1].strip()[:-1]. -/
def tabLineContent (ln sep : PyStr) : Option PyStr :=
  (pySplitFirst ln sep).map (fun p => (pyStrip p.2).dropLast)

/-- One iteration of the line loop of proces_doc, source lines
448-488.  Note the fidelity points: a separator-carrying line whose
prefix is neither a note name nor empty closes a running block without
being echoed (and is silently dropped when no block is running), and
an unlabeled string line beyond the sixth still sets the tab flag but
stores nothing. -/
def procLine (st : Settings) (s : DocState) (ln : PyStr) : Option DocState := do
  if pyContains ln st.tuning_separator then
    let noteName := pyStrip (pySplitHead ln st.tuning_separator)
    if (pyUpper noteName) ∈ NOTES_SHARPS.map Prod.fst ∨
       (pyUpper noteName) ∈ NOTES_FLATS.map (fun p => pyUpper p.1) then do
      let string_nr := s.string_nr + 1
      let content ← tabLineContent ln st.tuning_separator
      if st.write_octaves then do
        let label ← lookupNat st.tuning string_nr
        pure { s with
               tab := true
               string_nr := string_nr
               tabdict := dictAssignStr s.tabdict label content }
      else
        pure { s with
               tab := true
               string_nr := string_nr
               tabdict := dictAssignStr s.tabdict (noteName ++ natRepr string_nr) content }
    else if noteName = [] ∧ st.tuning_separator.isPrefixOf ln then do
      let string_nr := s.string_nr + 1
      if string_nr ≤ 6 then do
        let content ← tabLineContent ln st.tuning_separator
        let label ← lookupNat st.tuning string_nr
        if st.write_octaves then
          pure { s with
                 tab := true
                 string_nr := string_nr
                 tabdict := dictAssignStr s.tabdict label content }
        else
          pure { s with
                 tab := true
                 string_nr := string_nr
                 tabdict := dictAssignStr s.tabdict (label ++ natRepr string_nr) content }
      else
        pure { s with
               tab := true
               string_nr := string_nr }
    else if s.tab then flushTab st s
    else pure s
  else do
    let s ← if s.tab then flushTab st s else pure s
    pure { s with resultdoc := s.resultdoc ++ [ln] }

/-- proces_doc, source lines 435-502: scan the document line by line,
collecting contiguous tab blocks and flushing each through the core
pipeline, passing other lines through; append the filtered legend when
chord analysis is enabled. -/
def proces_doc (doc : List PyStr) (st : Settings) : Option (List PyStr) := do
  let s ← doc.foldlM (procLine st) ⟨[], [], false, [], 0⟩
  let s ← if s.tab then flushTab st s else pure s
  if st.chord_analysis then
    let filtered_legend := build_filtered_legend s.all_used
    if !filtered_legend.isEmpty then pure (s.resultdoc ++ [filtered_legend])
    else pure s.resultdoc
  else pure s.resultdoc

/-- The ten ASCII digit characters, used to quantify over "a string
label carrying an octave digit". -/
def digitChars : PyStr := "0123456789".toList

/-- The claim's notion of a recorded maximal run (claim C4): the
token's text is the non-empty slice of the line starting at column s,
every character of it satisfies p, the run extends neither left nor
right, and the fields record the 0-based start column, the inclusive
end column, the width, and the raw text. -/
def IsMaxRun (p : Char → Bool) (ln : PyStr) (s : Nat) (info : Fret) : Prop :=
  info.start = s ∧
  info.value ≠ [] ∧
  info.value = (ln.drop s).take info.value.length ∧
  info.value.all p = true ∧
  info.endp = s + info.value.length - 1 ∧
  info.width = info.value.length ∧
  (s = 0 ∨ ((ln[s - 1]?).elim false (fun c => !p c)) = true) ∧
  ((ln[s + info.value.length]?).elim true (fun c => !p c)) = true

instance (p : Char → Bool) (ln : PyStr) (s : Nat) (info : Fret) :
    Decidable (IsMaxRun p ln s info) := by
  unfold IsMaxRun
  infer_instance

/-- The character class the claim C4 ascribes to technique tokens:
anything that is neither a hyphen nor a digit (the source's regex
additionally excludes the plus sign). -/
def claimTechChar (c : Char) : Bool := !(c == '-') && !c.isDigit

/-- All members of all timing groups, in group order. -/
def Members (tgs : List (Nat × List Member)) : List Member := tgs.flatMap Prod.snd

/-- Forgetting a group member's uncertain flag gives back the token
entry it was built from. -/
def stripMember (m : Member) : Entry := ⟨m.string_note, m.pos, m.fret⟩

/-- A notedict is well formed when every token is keyed by its own
start column — which is how fretsFromLine and addTechniquesFromLine
build it (the key is always m.start() of the regex match). -/
def WFNotedict (notedict : List (PyStr × List (Nat × Fret))) : Prop :=
  ∀ p ∈ notedict, ∀ q ∈ p.2, q.1 = q.2.start

instance : DecidablePred WFNotedict := fun nd =>
  List.decidableBAll _ nd

instance : IsTotal Entry entryLe := ⟨fun a b => Nat.le_total a.pos b.pos⟩

instance : IsTrans Entry entryLe := ⟨fun _ _ _ => Nat.le_trans⟩

/-- The first-matching pattern for one candidate root as the
specification describes it (claim C7): returns the label appended for
that root, or none when no pattern matches. -/
def specRootLabel (note_nums : List Nat) (root : Nat) : Option PyStr :=
  (lookupNat SHARP_NAMES root).bind (fun root_name =>
    let intervals := intervalsFrom note_nums root
    if 3 ∈ intervals ∧ 7 ∈ intervals then some (root_name ++ "m".toList)
    else if 4 ∈ intervals ∧ 7 ∈ intervals then some (root_name ++ "maj".toList)
    else if 3 ∈ intervals ∧ 6 ∈ intervals then some (root_name ++ "dim".toList)
    else if 4 ∈ intervals ∧ 8 ∈ intervals then some (root_name ++ "aug".toList)
    else if 7 ∈ intervals ∧ intervals.length = 1 then some (root_name ++ "5".toList)
    else if 4 ∈ intervals ∧ intervals.length = 1 then some (root_name ++ "(M3)".toList)
    else if 3 ∈ intervals ∧ intervals.length = 1 then some (root_name ++ "(m3)".toList)
    else none)

/-! ## Basic lemmas about the string primitives -/

theorem digitChar_facts (n : Nat) (h : n < 10) :
    (Char.ofNat (48 + n)).isDigit = true ∧ (Char.ofNat (48 + n)).toNat = 48 + n := by
  interval_cases n <;> exact ⟨by decide, by decide⟩

theorem natReprAux_congr (n : Nat) : ∀ f1 f2, n < f1 → n < f2 →
    natReprAux f1 n = natReprAux f2 n := by
  induction n using Nat.strong_induction_on with
  | _ n ih =>
    intro f1 f2 h1 h2
    match f1, f2 with
    | a + 1, b + 1 =>
      rw [natReprAux, natReprAux]
      split
      · rfl
      · next h =>
        have hd : n / 10 < n := Nat.div_lt_self (by omega) (by omega)
        rw [ih (n / 10) hd a b (by omega) (by omega)]

theorem natRepr_unfold (n : Nat) :
    natRepr n = if n < 10 then [Char.ofNat (48 + n)]
                else natRepr (n / 10) ++ [Char.ofNat (48 + n % 10)] := by
  rw [natRepr, natReprAux]
  split
  · rfl
  · next h =>
    have hd : n / 10 < n := Nat.div_lt_self (by omega) (by omega)
    rw [natReprAux_congr (n / 10) n (n / 10 + 1) hd (by omega)]
    rfl

theorem natRepr_ne_nil (n : Nat) : natRepr n ≠ [] := by
  rw [natRepr_unfold]
  split
  · simp
  · simp

theorem natRepr_all_digits (n : Nat) : ∀ c ∈ natRepr n, c.isDigit = true := by
  induction n using Nat.strong_induction_on with
  | _ n ih =>
    rw [natRepr_unfold]
    split
    · next h =>
      intro c hc
      simp only [List.mem_singleton] at hc
      subst hc
      exact (digitChar_facts n h).1
    · next h =>
      intro c hc
      rcases List.mem_append.mp hc with h1 | h2
      · exact ih (n / 10) (Nat.div_lt_self (by omega) (by omega)) c h1
      · simp only [List.mem_singleton] at h2
        subst h2
        exact (digitChar_facts (n % 10) (Nat.mod_lt _ (by omega))).1

theorem natOfDigits_append (xs : PyStr) (c : Char) :
    natOfDigits (xs ++ [c]) = natOfDigits xs * 10 + (c.toNat - 48) := by
  simp [natOfDigits, List.foldl_append]

theorem natOfDigits_natRepr (n : Nat) : natOfDigits (natRepr n) = n := by
  induction n using Nat.strong_induction_on with
  | _ n ih =>
    rw [natRepr_unfold]
    split
    · next h =>
      simp [natOfDigits, (digitChar_facts n h).2]
    · next h =>
      rw [natOfDigits_append, ih (n / 10) (Nat.div_lt_self (by omega) (by omega)),
        (digitChar_facts (n % 10) (Nat.mod_lt _ (by omega))).2]
      omega

theorem pyIsNumeric_natRepr (n : Nat) : pyIsNumeric (natRepr n) = true := by
  have h1 := natRepr_ne_nil n
  have h2 := natRepr_all_digits n
  simp only [pyIsNumeric, Bool.and_eq_true, List.all_eq_true]
  constructor
  · simpa [List.isEmpty_iff] using h1
  · exact fun c hc => h2 c hc

theorem intRepr_ofNat (n : Nat) : intRepr (n : Int) = natRepr n := by
  simp [intRepr]

theorem pyReplace_nil_left (pat rep : PyStr) : pyReplace [] pat rep = [] := rfl

theorem pyReplaceAux_single_last (c : Char) :
    ∀ (xs : PyStr) (fuel : Nat), xs.length + 1 ≤ fuel → c ∉ xs →
      pyReplaceAux fuel (xs ++ [c]) [c] [] = xs := by
  intro xs
  induction xs with
  | nil =>
    intro fuel hfuel _
    match fuel, hfuel with
    | f + 1, _ =>
      show pyReplaceAux (f + 1) [c] [c] [] = []
      rw [pyReplaceAux]
      rw [if_pos (by simp [List.isPrefixOf])]
      simp [pyReplaceAux]
  | cons a as ih =>
    intro fuel hfuel h
    have hca : c ≠ a := fun hc => h (hc ▸ List.mem_cons_self a as)
    have h2 : c ∉ as := fun hc => h (List.mem_cons_of_mem a hc)
    match fuel, hfuel with
    | f + 1, hf =>
      show pyReplaceAux (f + 1) (a :: (as ++ [c])) [c] [] = a :: as
      rw [pyReplaceAux]
      rw [if_neg (by simp [List.isPrefixOf, hca])]
      have : as.length + 1 ≤ f := by
        simp only [List.length_cons] at hf
        omega
      rw [ih f this h2]

/-- Deleting all occurrences of the single character c from a string
that ends with c and otherwise avoids c gives back the prefix. -/
theorem pyReplace_single_last (xs : PyStr) (c : Char) (h : c ∉ xs) :
    pyReplace (xs ++ [c]) [c] [] = xs := by
  rw [pyReplace]
  exact pyReplaceAux_single_last c xs (xs ++ [c]).length (by simp) h

/-- Filtering a string that is digit-free text followed by a digit
tail splits it back into the two parts. -/
theorem filter_digits_append (name tail : PyStr)
    (hname : ∀ c ∈ name, c.isDigit = false) (htail : ∀ c ∈ tail, c.isDigit = true) :
    (name ++ tail).filter Char.isDigit = tail ∧
      (name ++ tail).filter (fun c => !c.isDigit) = name := by
  constructor
  · rw [List.filter_append, List.filter_eq_nil_iff.mpr (by
      intro c hc
      simp [hname c hc]), List.nil_append]
    exact List.filter_eq_self.mpr (by
      intro c hc
      simp [htail c hc])
  · rw [List.filter_append]
    have h1 : tail.filter (fun c => !c.isDigit) = [] := List.filter_eq_nil_iff.mpr (by
      intro c hc
      simp [htail c hc])
    have h2 : name.filter (fun c => !c.isDigit) = name := List.filter_eq_self.mpr (by
      intro c hc
      simp [hname c hc])
    rw [h1, h2, List.append_nil]

/-! ## Lemmas about the note tables -/

theorem sharpsKey_facts : ∀ N ∈ NOTES_SHARPS.map Prod.fst,
    (∀ c ∈ N, c.isDigit = false) ∧ pyUpper N = N ∧ (lookupStr NOTES_SHARPS N).isSome := by
  decide

theorem lookupStr_sharps_lt_12 (k : PyStr) (v : Nat)
    (h : lookupStr NOTES_SHARPS k = some v) : v < 12 := by
  unfold lookupStr at h
  cases hf : NOTES_SHARPS.find? (fun p => p.1 == k) with
  | none =>
    rw [hf] at h
    simp at h
  | some p =>
    rw [hf, Option.map_some'] at h
    have hmem := List.mem_of_find?_eq_some hf
    have hall : ∀ q ∈ NOTES_SHARPS, q.2 < 12 := by decide
    have hv : p.2 = v := Option.some_injective _ h
    exact hv ▸ hall p hmem

theorem digitChar_props : ∀ c ∈ digitChars,
    c.isDigit = true ∧ Char.toUpper c = c ∧ (c.toNat - 48) < 10 ∧
      natRepr (c.toNat - 48) = [c] := by
  decide

/-- For every pitch class 0..11 both name tables resolve, the names
are digit-free, and get_note_number inverts them. -/
theorem nameTable_roundtrip : ∀ k : Fin 12,
    (∃ nm, lookupNat SHARP_NAMES k.val = some nm ∧ (∀ c ∈ nm, c.isDigit = false) ∧
       get_note_number nm = some k.val) ∧
    (∃ nm, lookupNat FLAT_NAMES k.val = some nm ∧ (∀ c ∈ nm, c.isDigit = false) ∧
       get_note_number nm = some k.val) := by
  decide

theorem nameTable_roundtrip' (k : Nat) (h : k < 12) :
    (∃ nm, lookupNat SHARP_NAMES k = some nm ∧ (∀ c ∈ nm, c.isDigit = false) ∧
       get_note_number nm = some k) ∧
    (∃ nm, lookupNat FLAT_NAMES k = some nm ∧ (∀ c ∈ nm, c.isDigit = false) ∧
       get_note_number nm = some k) :=
  nameTable_roundtrip ⟨k, h⟩

/-! ## Pitch-resolver lemmas and claims C2, C6, C8 -/

/-- For a sharp-table key followed by one octave digit, the label
preprocessing of GetNote recovers the octave digit and the key. -/
theorem label_decomposition (N : PyStr) (hN : N ∈ NOTES_SHARPS.map Prod.fst)
    (c : Char) (hc : c ∈ digitChars) :
    baseOctaveOf (N ++ [c]) = c.toNat - 48 ∧
      baseNoteOf (N ++ [c]) = lookupStr NOTES_SHARPS N := by
  obtain ⟨hNdig, hNup, _⟩ := sharpsKey_facts N hN
  obtain ⟨hcdig, hcup, hd10, hrepr⟩ := digitChar_props c hc
  have hfilter := (filter_digits_append N [c] hNdig (by
    intro x hx
    simp only [List.mem_singleton] at hx
    exact hx ▸ hcdig)).1
  have hoct : baseOctaveOf (N ++ [c]) = c.toNat - 48 := by
    rw [baseOctaveOf]
    simp only [hfilter]
    simp [natOfDigits]
  refine ⟨hoct, ?_⟩
  rw [baseNoteOf, hoct, hrepr]
  have hupper : pyUpper (N ++ [c]) = N ++ [c] := by
    simp only [pyUpper, List.map_append, List.map_singleton, hcup]
    rw [pyUpper] at hNup
    rw [hNup]
  rw [hupper]
  have hcnotin : c ∉ N := fun hmem => by
    have hfd := hNdig c hmem
    rw [hcdig] at hfd
    exact Bool.true_eq_false.mp hfd
  rw [pyReplace_single_last N c hcnotin]

/-- Core of the GetNote round trip: with transpose 0, octaves on, no
added spaces, and the two spelling flags set to opposite values,
resolving a numeric fret on a label whose open pitch class is pc and
whose base octave is d renders a name from which get_note_number
recovers (pc + fret) mod 12 and the digits recover
(pc + fret) / 12 + d. -/
theorem getnote_roundtrip_core (st : Settings)
    (hsp : st.write_sharps = !st.write_flats)
    (htrans : st.transpose = 0) (hocts : st.write_octaves = true)
    (hspace : st.add_space = false)
    (label fret : PyStr) (d pc : Nat)
    (hfretnum : pyIsNumeric fret = true)
    (hbase : baseNoteOf label = some pc) (hpc12 : pc < 12)
    (hoctv : baseOctaveOf label = d) :
    ∃ res, GetNote label fret st = some res ∧
      get_note_number res = some ((pc + natOfDigits fret) % 12) ∧
      natOfDigits (res.filter Char.isDigit) = (pc + natOfDigits fret) / 12 + d := by
  set fretN : Nat := natOfDigits fret with hfretN
  have hnn : noteNumOf label fret st = some ((pc + fretN : Nat) : Int) := by
    rw [noteNumOf, hbase, Option.map_some', htrans]
    push_cast
    ring_nf
  have htn : ((((pc + fretN : Nat) : Int)) % 12).toNat = (pc + fretN) % 12 := by omega
  have hfnn : fretNoteNumOf label fret st = some ((pc + fretN) % 12) := by
    rw [fretNoteNumOf, hnn, Option.map_some', htn]
  have hov : octaveOf label fret st =
      some (((pc + fretN) / 12 + d : Nat) : Int) := by
    rw [octaveOf, hnn, Option.map_some', hoctv]
    congr 1
    rw [Int.fdiv_eq_ediv _ (by norm_num)]
    omega
  have hmod12 : (pc + fretN) % 12 < 12 := Nat.mod_lt _ (by omega)
  obtain ⟨hsharp, hflat⟩ := nameTable_roundtrip' ((pc + fretN) % 12) hmod12
  obtain ⟨nmS, hnmS, hnmSdig, hnmSrt⟩ := hsharp
  obtain ⟨nmF, hnmF, hnmFdig, hnmFrt⟩ := hflat
  have hrender : ∃ nm, renderName st ((pc + fretN) % 12) = some nm ∧
      (∀ ch ∈ nm, ch.isDigit = false) ∧ get_note_number nm = some ((pc + fretN) % 12) := by
    cases hwf : st.write_flats with
    | false =>
      refine ⟨nmS, ?_, hnmSdig, hnmSrt⟩
      rw [hwf] at hsp
      rw [renderName, hwf, hsp]
      simpa using hnmS
    | true =>
      refine ⟨nmF, ?_, hnmFdig, hnmFrt⟩
      rw [renderName, hwf]
      simpa using hnmF
  obtain ⟨nm, hnm, hnmdig, hnmrt⟩ := hrender
  set oct : Nat := (pc + fretN) / 12 + d with hoctdef
  have hres : GetNote label fret st = some (nm ++ natRepr oct) := by
    rw [GetNote, hfretnum]
    simp only [Bool.not_true, Bool.false_eq_true, if_false]
    rw [hfnn, hov]
    show (renderName st ((pc + fretN) % 12)).map
        (fun name => addSpaceSuffix st
          (if st.write_octaves = true then name ++ intRepr ((oct : Nat) : Int) else name)) =
      some (nm ++ natRepr oct)
    rw [hnm, Option.map_some', hocts]
    simp only [if_true]
    rw [intRepr_ofNat]
    rw [addSpaceSuffix, hspace]
    simp
  have hsplit := filter_digits_append nm (natRepr oct) hnmdig (natRepr_all_digits oct)
  refine ⟨nm ++ natRepr oct, hres, ?_, ?_⟩
  · rw [get_note_number]
    rw [hsplit.2]
    rw [get_note_number] at hnmrt
    have hself : nm.filter (fun ch => !ch.isDigit) = nm := List.filter_eq_self.mpr (by
      intro ch hch
      simp [hnmdig ch hch])
    rw [hself] at hnmrt
    exact hnmrt
  · rw [hsplit.1, natOfDigits_natRepr]

/-- Claim C2: for every sharp-spelled string label carrying an octave
digit, every fret number 0-24, transpose 0, octave writing enabled,
and either spelling setting, rendering with GetNote and then deriving
the pitch class from the rendered name via get_note_number and the
octave from the rendered digits recovers exactly
(open pitch class + fret) mod 12 and
(open pitch class + fret) / 12 + base octave. -/
theorem C2_getnote_roundtrip :
    ∀ N ∈ NOTES_SHARPS.map Prod.fst, ∀ c ∈ digitChars, ∀ fretN : Nat, fretN ≤ 24 →
    ∀ flats : Bool,
    ∃ pc res,
      baseNoteOf (N ++ [c]) = some pc ∧
      GetNote (N ++ [c]) (natRepr fretN)
        { defaultSettings with write_flats := flats, write_sharps := !flats } = some res ∧
      get_note_number res = some ((pc + fretN) % 12) ∧
      natOfDigits (res.filter Char.isDigit) = (pc + fretN) / 12 + (c.toNat - 48) := by
  intro N hN c hc fretN _hfret flats
  obtain ⟨hoct, hbase⟩ := label_decomposition N hN c hc
  obtain ⟨-, -, hsome⟩ := sharpsKey_facts N hN
  obtain ⟨pc, hpc⟩ := Option.isSome_iff_exists.mp hsome
  have hpc12 : pc < 12 := lookupStr_sharps_lt_12 N pc hpc
  have hbase2 : baseNoteOf (N ++ [c]) = some pc := by rw [hbase, hpc]
  obtain ⟨res, h1, h2, h3⟩ := getnote_roundtrip_core
    { defaultSettings with write_flats := flats, write_sharps := !flats }
    rfl rfl rfl rfl (N ++ [c]) (natRepr fretN) (c.toNat - 48) pc
    (pyIsNumeric_natRepr fretN) hbase2 hpc12 hoct
  rw [natOfDigits_natRepr] at h2 h3
  exact ⟨pc, res, hbase2, h1, h2, h3⟩

/-- Claim C6, amended: with a spelling mode set, GetNote on a numeric
fret value succeeds exactly when the sharps-table lookup of the
upper-cased, octave-stripped label (baseNoteOf) succeeds; recognized
flat-spelled letters are not sufficient, because the single lookup
upper-cases the label and consults only NOTES_SHARPS. -/
theorem C6_getnote_failure (label fret : PyStr) (st : Settings)
    (hnum : pyIsNumeric fret = true)
    (hsp : st.write_sharps = true ∨ st.write_flats = true) :
    (GetNote label fret st).isSome = (baseNoteOf label).isSome := by
  cases hbase : baseNoteOf label with
  | none =>
    have h1 : fretNoteNumOf label fret st = none := by
      rw [fretNoteNumOf, noteNumOf, hbase]
      rfl
    have h2 : octaveOf label fret st = none := by
      rw [octaveOf, noteNumOf, hbase]
      rfl
    rw [GetNote, hnum]
    simp only [Bool.not_true, Bool.false_eq_true, if_false]
    rw [h1, h2]
    rfl
  | some b =>
    have hb12 : b < 12 := by
      rw [baseNoteOf] at hbase
      exact lookupStr_sharps_lt_12 _ b hbase
    have hnn : noteNumOf label fret st =
        some ((b : Int) + (natOfDigits fret : Int) + st.transpose) := by
      rw [noteNumOf, hbase, Option.map_some']
    set n : Int := (b : Int) + (natOfDigits fret : Int) + st.transpose with hn
    have hfnn : fretNoteNumOf label fret st = some ((n % 12).toNat) := by
      rw [fretNoteNumOf, hnn, Option.map_some']
    have hov : octaveOf label fret st = some (n.fdiv 12 + (baseOctaveOf label : Int)) := by
      rw [octaveOf, hnn, Option.map_some']
    have h12 : (n % 12).toNat < 12 := by omega
    have hrender : ∃ nm, renderName st ((n % 12).toNat) = some nm := by
      obtain ⟨hsharp, hflat⟩ := nameTable_roundtrip' ((n % 12).toNat) h12
      obtain ⟨nmS, hnmS, -, -⟩ := hsharp
      obtain ⟨nmF, hnmF, -, -⟩ := hflat
      cases hwf : st.write_flats with
      | true =>
        refine ⟨nmF, ?_⟩
        rw [renderName, hwf]
        simpa using hnmF
      | false =>
        have hws : st.write_sharps = true := by
          rcases hsp with h | h
          · exact h
          · rw [hwf] at h
            exact absurd h (by simp)
        refine ⟨nmS, ?_⟩
        rw [renderName, hwf, hws]
        simpa using hnmS
    obtain ⟨nm, hnm⟩ := hrender
    rw [GetNote, hnum]
    simp only [Bool.not_true, Bool.false_eq_true, if_false]
    rw [hfnn, hov]
    show ((renderName st ((n % 12).toNat)).map
      (fun name => addSpaceSuffix st
        (if st.write_octaves = true then
          name ++ intRepr (n.fdiv 12 + (baseOctaveOf label : Int)) else name))).isSome =
      (some b).isSome
    rw [hnm, Option.map_some']
    rfl

/-- Counterexample to claim C6 as stated: "Bb" is a recognized flat
pitch name, so the label "Bb3" has a recognized letter portion, yet
GetNote on the purely numeric fret "0" fails (KeyError, modelled as
none), because the lookup upper-cases the label to "BB3", strips the
octave, and consults only the sharps table. -/
theorem C6_counterexample :
    lookupStr NOTES_FLATS ("Bb".toList) = some 10 ∧
    pyIsNumeric ("0".toList) = true ∧
    GetNote ("Bb3".toList) ("0".toList) defaultSettings = none := by
  decide

/-- Witness for the amended claim C6 at a concrete input. -/
theorem C6_witness :
    (GetNote ("E4".toList) ("0".toList) defaultSettings).isSome =
      (baseNoteOf ("E4".toList)).isSome :=
  C6_getnote_failure ("E4".toList) ("0".toList) defaultSettings (by decide) (Or.inl rfl)

/-- Claim C8: raising the transpose offset by 12 semitones leaves the
computed pitch class (hence the rendered pitch-class name, in either
spelling) unchanged and raises the computed octave by exactly one;
with octave writing disabled the rendered output is identical. -/
theorem C8_transpose_twelve (label fret : PyStr) (st : Settings)
    (hnum : pyIsNumeric fret = true) :
    fretNoteNumOf label fret { st with transpose := st.transpose + 12 } =
      fretNoteNumOf label fret st ∧
    octaveOf label fret { st with transpose := st.transpose + 12 } =
      (octaveOf label fret st).map (fun o : Int => o + 1) ∧
    GetNote label fret { st with transpose := st.transpose + 12, write_octaves := false } =
      GetNote label fret { st with write_octaves := false } := by
  cases hbase : baseNoteOf label with
  | none =>
    have e1 : ∀ st2 : Settings, noteNumOf label fret st2 = none := by
      intro st2
      rw [noteNumOf, hbase]
      rfl
    refine ⟨?_, ?_, ?_⟩
    · rw [fretNoteNumOf, fretNoteNumOf, e1, e1]
    · rw [octaveOf, octaveOf, e1, e1]
      rfl
    · rw [GetNote, GetNote, hnum]
      simp only [Bool.not_true, Bool.false_eq_true, if_false]
      have ha : fretNoteNumOf label fret
          { st with transpose := st.transpose + 12, write_octaves := false } = none := by
        rw [fretNoteNumOf, e1]
        rfl
      have hb : fretNoteNumOf label fret { st with write_octaves := false } = none := by
        rw [fretNoteNumOf, e1]
        rfl
      have hoa : octaveOf label fret
          { st with transpose := st.transpose + 12, write_octaves := false } = none := by
        rw [octaveOf, e1]
        rfl
      have hob : octaveOf label fret { st with write_octaves := false } = none := by
        rw [octaveOf, e1]
        rfl
      rw [ha, hb, hoa, hob]
  | some b =>
    set n : Int := (b : Int) + (natOfDigits fret : Int) + st.transpose with hn
    have h1 : ∀ st2 : Settings, st2.transpose = st.transpose →
        noteNumOf label fret st2 = some n := by
      intro st2 ht
      rw [noteNumOf, hbase, Option.map_some', ht]
    have h2 : ∀ st2 : Settings, st2.transpose = st.transpose + 12 →
        noteNumOf label fret st2 = some (n + 12) := by
      intro st2 ht
      rw [noteNumOf, hbase, Option.map_some', ht, hn]
      congr 1
      ring
    have hpceq : ((n + 12) % 12).toNat = (n % 12).toNat := by omega
    have hfd : (n + 12).fdiv 12 = n.fdiv 12 + 1 := by
      rw [Int.fdiv_eq_ediv _ (by norm_num), Int.fdiv_eq_ediv _ (by norm_num)]
      omega
    refine ⟨?_, ?_, ?_⟩
    · rw [fretNoteNumOf, fretNoteNumOf, h1 st rfl, h2 _ rfl, Option.map_some',
        Option.map_some', hpceq]
    · rw [octaveOf, octaveOf, h1 st rfl, h2 _ rfl, Option.map_some', Option.map_some',
        Option.map_some', hfd]
      congr 1
      ring
    · rw [GetNote, GetNote, hnum]
      simp only [Bool.not_true, Bool.false_eq_true, if_false]
      rw [fretNoteNumOf, fretNoteNumOf, octaveOf, octaveOf,
        h1 { st with write_octaves := false } rfl,
        h2 { st with transpose := st.transpose + 12, write_octaves := false } rfl,
        Option.map_some', Option.map_some', Option.map_some', Option.map_some', hpceq]
      rfl

/-- Witness for claim C8 at a concrete input. -/
theorem C8_witness :
    fretNoteNumOf ("E4".toList) ("0".toList)
        { defaultSettings with transpose := defaultSettings.transpose + 12 } =
      fretNoteNumOf ("E4".toList) ("0".toList) defaultSettings ∧
    octaveOf ("E4".toList) ("0".toList)
        { defaultSettings with transpose := defaultSettings.transpose + 12 } =
      (octaveOf ("E4".toList) ("0".toList) defaultSettings).map (fun o : Int => o + 1) ∧
    GetNote ("E4".toList) ("0".toList)
        { defaultSettings with transpose := defaultSettings.transpose + 12,
                               write_octaves := false } =
      GetNote ("E4".toList) ("0".toList) { defaultSettings with write_octaves := false } :=
  C8_transpose_twelve ("E4".toList) ("0".toList) defaultSettings (by decide)

/-- Witness for claim C2 at a concrete input. -/
theorem C2_witness :
    ∃ pc res,
      baseNoteOf (("E".toList) ++ ['4']) = some pc ∧
      GetNote (("E".toList) ++ ['4']) (natRepr 0)
        { defaultSettings with write_flats := false, write_sharps := !false } = some res ∧
      get_note_number res = some ((pc + 0) % 12) ∧
      natOfDigits (res.filter Char.isDigit) = (pc + 0) / 12 + ('4'.toNat - 48) :=
  C2_getnote_roundtrip ("E".toList) (by decide) '4' (by decide) 0 (by decide) false

/-! ## Classifier lemmas and claims C3, C7 -/

theorem lookupStr_flats_lt_12 (k : PyStr) (v : Nat)
    (h : lookupStr NOTES_FLATS k = some v) : v < 12 := by
  unfold lookupStr at h
  cases hf : NOTES_FLATS.find? (fun p => p.1 == k) with
  | none =>
    rw [hf] at h
    simp at h
  | some p =>
    rw [hf, Option.map_some'] at h
    have hmem := List.mem_of_find?_eq_some hf
    have hall : ∀ q ∈ NOTES_FLATS, q.2 < 12 := by decide
    have hv : p.2 = v := Option.some_injective _ h
    exact hv ▸ hall p hmem

theorem get_note_number_lt_12 (nm : PyStr) (v : Nat)
    (h : get_note_number nm = some v) : v < 12 := by
  unfold get_note_number gnnLookup at h
  cases hs : lookupStr NOTES_SHARPS (nm.filter (fun c => !c.isDigit)) with
  | some n =>
    rw [hs] at h
    have hnv : n = v := Option.some_injective _ h
    exact hnv ▸ lookupStr_sharps_lt_12 _ n hs
  | none =>
    rw [hs] at h
    exact lookupStr_flats_lt_12 _ v h

theorem collectNoteNums_lt_12 (notes : List PyStr) :
    ∀ x ∈ collectNoteNums notes, x < 12 := by
  rw [collectNoteNums]
  suffices h : ∀ (acc : List Nat), (∀ x ∈ acc, x < 12) →
      ∀ x ∈ notes.foldl (fun acc note =>
        match get_note_number note with
        | some num => if num ∈ acc then acc else acc ++ [num]
        | none => acc) acc, x < 12 by
    exact h [] (by simp)
  induction notes with
  | nil => exact fun acc hacc => hacc
  | cons note rest ih =>
    intro acc hacc
    rw [List.foldl_cons]
    apply ih
    cases hg : get_note_number note with
    | none => simpa [hg] using hacc
    | some num =>
      simp only [hg]
      split
      · exact hacc
      · intro x hx
        rcases List.mem_append.mp hx with h1 | h2
        · exact hacc x h1
        · simp only [List.mem_singleton] at h2
          exact h2 ▸ get_note_number_lt_12 note num hg

theorem collect_fold_ne_nil :
    ∀ (notes : List PyStr) (acc : List Nat),
      (acc ≠ [] ∨ ∃ note ∈ notes, (get_note_number note).isSome) →
      notes.foldl (fun acc note =>
        match get_note_number note with
        | some num => if num ∈ acc then acc else acc ++ [num]
        | none => acc) acc ≠ [] := by
  intro notes
  induction notes with
  | nil =>
    intro acc hacc
    rcases hacc with h1 | h2
    · simpa using h1
    · simp at h2
  | cons note rest ih =>
    intro acc hacc
    rw [List.foldl_cons]
    cases hg : get_note_number note with
    | none =>
      apply ih
      rcases hacc with h1 | h2
      · exact Or.inl (by simpa [hg] using h1)
      · obtain ⟨x, hx, hxs⟩ := h2
        rcases List.mem_cons.mp hx with rfl | hxr
        · rw [hg] at hxs
          simp at hxs
        · exact Or.inr ⟨x, hxr, hxs⟩
    | some num =>
      apply ih
      refine Or.inl ?_
      simp only [hg]
      split
      case isTrue hin =>
        rcases hacc with h1 | _
        · exact h1
        · intro hnil
          rw [hnil] at hin
          simp at hin
      case isFalse hnotin => simp

theorem collectNoteNums_ne_nil (notes : List PyStr)
    (h : ∃ note ∈ notes, (get_note_number note).isSome) :
    collectNoteNums notes ≠ [] := by
  rw [collectNoteNums]
  exact collect_fold_ne_nil notes [] (Or.inr h)

theorem abbrevOrName_singleton (x : PyStr) : ∃ s, abbrevOrName x = [s] := by
  rw [abbrevOrName]
  cases ho : (CHORD_ABBREVIATIONS.find? (fun p => p.1 == x)).map Prod.snd with
  | some ad => exact ⟨ad.1, rfl⟩
  | none => exact ⟨x, rfl⟩

theorem analyze_interval_singleton (a b : Nat) (rest : List Nat) :
    ∃ s, analyze_interval (a :: b :: rest) = some [s] := by
  rw [analyze_interval]
  obtain ⟨s, hs⟩ := abbrevOrName_singleton
    (match lookupNat interval_names ((((b : Int) - (a : Int)) % 12).toNat) with
     | some nm => nm
     | none => "interval(".toList ++ natRepr ((((b : Int) - (a : Int)) % 12).toNat) ++
         ")".toList)
  exact ⟨s, by rw [hs]⟩

theorem triadLoopStep_spec (nums : List Nat) (acc : List PyStr) (root : Nat)
    (h : root < 12) :
    triadLoopStep nums acc root = some (acc ++ (specRootLabel nums root).toList) := by
  obtain ⟨⟨nm, hnm, -, -⟩, -⟩ := nameTable_roundtrip' root h
  rw [triadLoopStep, specRootLabel, hnm]
  simp only [Option.some_bind]
  split_ifs <;> simp

theorem triad_fold_spec (nums : List Nat) :
    ∀ (L : List Nat) (acc : List PyStr), (∀ x ∈ L, x < 12) →
      L.foldlM (triadLoopStep nums) acc = some (acc ++ L.filterMap (specRootLabel nums)) := by
  intro L
  induction L with
  | nil =>
    intro acc _
    simp
  | cons root rest ih =>
    intro acc hall
    rw [List.foldlM_cons, triadLoopStep_spec nums acc root (hall root (List.mem_cons_self root rest))]
    show rest.foldlM (triadLoopStep nums) (acc ++ (specRootLabel nums root).toList) =
      some (acc ++ (root :: rest).filterMap (specRootLabel nums))
    rw [ih (acc ++ (specRootLabel nums root).toList) (fun x hx => hall x (List.mem_cons_of_mem root hx))]
    rw [List.filterMap_cons]
    cases hs : specRootLabel nums root with
    | none => simp [hs]
    | some lbl => simp [hs]

theorem triadFallback_some (n0 : Nat) (rest : List Nat) (h : n0 < 12) :
    ∃ l, triadFallback (n0 :: rest) = some l ∧ l ≠ [] := by
  obtain ⟨⟨nm, hnm, -, -⟩, -⟩ := nameTable_roundtrip' n0 h
  rw [triadFallback, hnm]
  simp only [Option.some_bind]
  split_ifs
  · exact ⟨_, rfl, by simp⟩
  · exact ⟨_, rfl, by simp⟩
  · exact ⟨_, rfl, by simp⟩

theorem analyze_triad_eq (nums : List Nat) :
    analyze_triad nums = (nums.foldlM (triadLoopStep nums) []).bind
      (fun results => if results.isEmpty then triadFallback nums else some results) := rfl

theorem analyze_triad_total (nums : List Nat) (hne : nums ≠ [])
    (hall : ∀ x ∈ nums, x < 12) :
    ∃ l, analyze_triad nums = some l ∧ l ≠ [] := by
  have hfold := triad_fold_spec nums nums [] hall
  rw [analyze_triad_eq, hfold, Option.some_bind, List.nil_append]
  cases hfm : (nums.filterMap (specRootLabel nums)).isEmpty with
  | true =>
    rw [if_pos rfl]
    match nums, hne with
    | n0 :: rest, _ => exact triadFallback_some n0 rest (hall n0 (List.mem_cons_self n0 rest))
  | false =>
    rw [if_neg (by simp)]
    refine ⟨_, rfl, ?_⟩
    intro h0
    rw [h0] at hfm
    simp at hfm

/-- The length dispatch of analyze_chord always yields a non-empty
label list on a non-empty pitch-class list whose members are in
0..11. -/
theorem dispatch_total (nums : List Nat) (hne : nums ≠ []) (hlt : ∀ x ∈ nums, x < 12) :
    ∃ l, (if nums.length = 1 then some ["unison".toList]
          else if nums.length = 2 then analyze_interval nums
          else if 3 ≤ nums.length then analyze_triad nums
          else some []) = some l ∧ l ≠ [] := by
  match nums with
  | [] => exact absurd rfl hne
  | [a] => exact ⟨["unison".toList], by simp, by simp⟩
  | [a, b] =>
    obtain ⟨s, hs⟩ := analyze_interval_singleton a b []
    rw [if_neg (by simp), if_pos (show ([a, b] : List Nat).length = 2 from rfl)]
    exact ⟨[s], hs, by simp⟩
  | a :: b :: c :: rest =>
    obtain ⟨l, hl, hlne⟩ := analyze_triad_total (a :: b :: c :: rest) (by simp) hlt
    rw [if_neg (by simp only [List.length_cons]; omega),
        if_neg (by simp only [List.length_cons]; omega),
        if_pos (by simp only [List.length_cons]; omega)]
    exact ⟨l, hl, hlne⟩

/-- analyze_chord on an input of length at least two, with the short
circuit for small inputs removed. -/
theorem analyze_chord_big (notes : List PyStr) (h : 2 ≤ notes.length) :
    analyze_chord notes =
      (if ((collectNoteNums notes).insertionSort (· ≤ ·)).length = 1 then
         some ["unison".toList]
       else if ((collectNoteNums notes).insertionSort (· ≤ ·)).length = 2 then
         analyze_interval ((collectNoteNums notes).insertionSort (· ≤ ·))
       else if 3 ≤ ((collectNoteNums notes).insertionSort (· ≤ ·)).length then
         analyze_triad ((collectNoteNums notes).insertionSort (· ≤ ·))
       else some []) := by
  have h1 : notes.isEmpty = false := by
    cases notes
    · simp at h
    · rfl
  have h2 : ¬ notes.length < 2 := by omega
  rw [analyze_chord, if_neg (by simp [h1, h2])]

/-- Claim C3, amended: analyze_chord returns no label at all for the
empty list and for every one-element list (the source's early return
for fewer than two notes); for a list of at least two entries at least
one of which resolves to a pitch class it returns at least one label;
and when such a list reduces to exactly one distinct pitch class the
label is exactly "unison". -/
theorem C3_classifier_totality :
    analyze_chord [] = some [] ∧
    (∀ note : PyStr, analyze_chord [note] = some []) ∧
    (∀ notes : List PyStr, 2 ≤ notes.length →
      (∃ note ∈ notes, (get_note_number note).isSome) →
      ∃ l, analyze_chord notes = some l ∧ l ≠ []) ∧
    (∀ notes : List PyStr, 2 ≤ notes.length →
      (collectNoteNums notes).length = 1 →
      analyze_chord notes = some ["unison".toList]) := by
  refine ⟨rfl, fun note => rfl, ?_, ?_⟩
  · intro notes hlen hres
    rw [analyze_chord_big notes hlen]
    set nums := (collectNoteNums notes).insertionSort (· ≤ ·) with hnums
    have hperm : nums.Perm (collectNoteNums notes) := List.perm_insertionSort _ _
    have hlt : ∀ x ∈ nums, x < 12 := fun x hx =>
      collectNoteNums_lt_12 notes x (hperm.mem_iff.mp hx)
    have hne : nums ≠ [] := by
      intro h0
      have hcne := collectNoteNums_ne_nil notes hres
      have hl := hperm.length_eq
      rw [h0] at hl
      simp only [List.length_nil] at hl
      exact hcne (List.length_eq_zero.mp hl.symm)
    exact dispatch_total nums hne hlt
  · intro notes hlen h1
    rw [analyze_chord_big notes hlen]
    have hlen1 : ((collectNoteNums notes).insertionSort (· ≤ ·)).length = 1 := by
      rw [(List.perm_insertionSort _ _).length_eq, h1]
    rw [if_pos hlen1]

/-- Witness for the amended claim C3 at concrete inputs. -/
theorem C3_witness :
    (∃ l, analyze_chord [("C4".toList), ("C5".toList)] = some l ∧ l ≠ []) ∧
    analyze_chord [("C4".toList), ("C5".toList)] = some ["unison".toList] := by
  constructor
  · exact (C3_classifier_totality.2.2.1 [("C4".toList), ("C5".toList)] (by decide)
      ⟨("C4".toList), by simp, by decide⟩)
  · exact (C3_classifier_totality.2.2.2 [("C4".toList), ("C5".toList)] (by decide) (by decide))

/-- Counterexample to claim C3 as stated: the one-element input "C4"
is non-empty and reduces to exactly one distinct pitch class, yet
analyze_chord returns no label at all (the source returns [] for any
input shorter than two notes), not ["unison"]. -/
theorem C3_counterexample :
    ([("C4".toList)] : List PyStr) ≠ [] ∧
    collectNoteNums [("C4".toList)] = [0] ∧
    analyze_chord [("C4".toList)] = some [] ∧
    analyze_chord [("C4".toList)] ≠ some ["unison".toList] := by
  refine ⟨by simp, by decide, rfl, by decide⟩

/-- Claim C7: for inputs of three or more pitch classes (all in
0..11), the root loop of analyze_triad appends per candidate root, in
list order, exactly the first matching pattern among intervals {3,7}
minor, {4,7} major, {3,6} diminished, {4,8} augmented, sole 7 power
chord, sole 4 bare major third, sole 3 bare minor third, with the root
named in sharp spelling (specRootLabel states the claim's pattern
list); when at least one root matches, the classifier returns exactly
those labels; and the three notes C, E, G yield exactly "Cmaj". -/
theorem C7_triad_patterns :
    (∀ nums : List Nat, (∀ x ∈ nums, x < 12) → 3 ≤ nums.length →
      nums.filterMap (specRootLabel nums) ≠ [] →
      analyze_triad nums = some (nums.filterMap (specRootLabel nums))) ∧
    analyze_chord [("C".toList), ("E".toList), ("G".toList)] = some [("Cmaj".toList)] := by
  constructor
  · intro nums hall _hlen hne
    rw [analyze_triad_eq, triad_fold_spec nums nums [] hall, Option.some_bind,
      List.nil_append]
    rw [if_neg (by simpa using hne)]
  · decide

/-- Witness for claim C7 at the concrete input C-E-G (pitch classes
0, 4, 7). -/
theorem C7_witness :
    analyze_triad [0, 4, 7] = some ([0, 4, 7].filterMap (specRootLabel [0, 4, 7])) :=
  C7_triad_patterns.1 [0, 4, 7] (by decide) (by decide) (by decide)

/-! ## Timing-grouper lemmas and claims C1, C9, C10 -/

theorem Members_nil : Members [] = [] := rfl

theorem Members_cons (k : Nat) (g : List Member) (rest : List (Nat × List Member)) :
    Members ((k, g) :: rest) = g ++ Members rest := by
  simp [Members]

theorem Members_append (a b : List (Nat × List Member)) :
    Members (a ++ b) = Members a ++ Members b := by
  simp [Members]

/-- A successful join adds exactly one member, built against some
existing member that overlaps the new token. -/
theorem joinFirstGroup_some (ent : Entry) :
    ∀ (tgs tgs2 : List (Nat × List Member)), joinFirstGroup tgs ent = some tgs2 →
      ∃ e ∈ Members tgs, posOverlap ent.fret e.fret = true ∧
        (Members tgs2).Perm (Members tgs ++
          [⟨ent.string_note, ent.pos, ent.fret, uncertainFlag ent.fret e.fret⟩]) := by
  intro tgs
  induction tgs with
  | nil =>
    intro tgs2 h
    simp [joinFirstGroup] at h
  | cons kg0 rest ih =>
    intro tgs2 h
    obtain ⟨k, g⟩ := kg0
    rw [joinFirstGroup] at h
    cases hfind : g.find? (fun m => posOverlap ent.fret m.fret) with
    | some m =>
      rw [hfind] at h
      have h2 : ((k, g ++ [⟨ent.string_note, ent.pos, ent.fret,
          uncertainFlag ent.fret m.fret⟩]) :: rest) = tgs2 := Option.some_injective _ h
      refine ⟨m, ?_, by simpa using List.find?_some hfind, ?_⟩
      · rw [Members_cons]
        exact List.mem_append_left _ (List.mem_of_find?_eq_some hfind)
      · rw [← h2, Members_cons, Members_cons, List.append_assoc, List.append_assoc]
        exact List.Perm.append_left g List.perm_append_comm
    | none =>
      rw [hfind] at h
      cases hr : joinFirstGroup rest ent with
      | none =>
        rw [hr] at h
        simp at h
      | some r =>
        rw [hr, Option.map_some'] at h
        have h2 : ((k, g) :: r) = tgs2 := Option.some_injective _ h
        obtain ⟨e, he, hov, hperm⟩ := ih r hr
        refine ⟨e, ?_, hov, ?_⟩
        · rw [Members_cons]
          exact List.mem_append_right _ he
        · rw [← h2, Members_cons, Members_cons, List.append_assoc]
          exact List.Perm.append_left g hperm

/-- A failed join means no member of any group overlaps the token. -/
theorem joinFirstGroup_none (ent : Entry) :
    ∀ tgs, joinFirstGroup tgs ent = none →
      ∀ kg ∈ tgs, ∀ m ∈ kg.2, posOverlap ent.fret m.fret = false := by
  intro tgs
  induction tgs with
  | nil =>
    intro _ kg hkg
    simp at hkg
  | cons kg0 rest ih =>
    intro h kg hkg m hm
    obtain ⟨k, g⟩ := kg0
    rw [joinFirstGroup] at h
    cases hfind : g.find? (fun m => posOverlap ent.fret m.fret) with
    | some m0 =>
      rw [hfind] at h
      simp at h
    | none =>
      rw [hfind] at h
      rcases List.mem_cons.mp hkg with rfl | hr
      · have hfail := List.find?_eq_none.mp hfind m hm
        simpa using hfail
      · have hnone : joinFirstGroup rest ent = none := by
          cases hr2 : joinFirstGroup rest ent with
          | none => rfl
          | some r =>
            rw [hr2] at h
            simp at h
        exact ih hnone kg hr m hm

/-- Every group after a successful join is an old group, possibly with
one member appended. -/
theorem joinFirstGroup_groups (ent : Entry) :
    ∀ tgs tgs2, joinFirstGroup tgs ent = some tgs2 →
      ∀ kg2 ∈ tgs2, kg2 ∈ tgs ∨
        ∃ kg ∈ tgs, kg2.1 = kg.1 ∧ ∃ nm : Member, kg2.2 = kg.2 ++ [nm] := by
  intro tgs
  induction tgs with
  | nil =>
    intro tgs2 h
    simp [joinFirstGroup] at h
  | cons kg0 rest ih =>
    intro tgs2 h kg2 hkg2
    obtain ⟨k, g⟩ := kg0
    rw [joinFirstGroup] at h
    cases hfind : g.find? (fun m => posOverlap ent.fret m.fret) with
    | some m =>
      rw [hfind] at h
      have h2 : ((k, g ++ [⟨ent.string_note, ent.pos, ent.fret,
          uncertainFlag ent.fret m.fret⟩]) :: rest) = tgs2 := Option.some_injective _ h
      rw [← h2] at hkg2
      rcases List.mem_cons.mp hkg2 with rfl | hr
      · exact Or.inr ⟨(k, g), List.mem_cons_self _ _, rfl, _, rfl⟩
      · exact Or.inl (List.mem_cons_of_mem _ hr)
    | none =>
      rw [hfind] at h
      cases hr : joinFirstGroup rest ent with
      | none =>
        rw [hr] at h
        simp at h
      | some r =>
        rw [hr, Option.map_some'] at h
        have h2 : ((k, g) :: r) = tgs2 := Option.some_injective _ h
        rw [← h2] at hkg2
        rcases List.mem_cons.mp hkg2 with rfl | hr2
        · exact Or.inl (List.mem_cons_self _ _)
        · rcases ih r hr kg2 hr2 with h3 | ⟨kg, hkg, he1, he2⟩
          · exact Or.inl (List.mem_cons_of_mem _ h3)
          · exact Or.inr ⟨kg, List.mem_cons_of_mem _ hkg, he1, he2⟩

/-- Member-level membership after a successful join. -/
theorem joinFirstGroup_mem (ent : Entry) :
    ∀ tgs tgs2, joinFirstGroup tgs ent = some tgs2 →
      ∀ m ∈ Members tgs2, m ∈ Members tgs ∨
        ∃ ex ∈ Members tgs,
          m = ⟨ent.string_note, ent.pos, ent.fret, uncertainFlag ent.fret ex.fret⟩ := by
  intro tgs tgs2 h m hm
  obtain ⟨e, he, _, hperm⟩ := joinFirstGroup_some ent tgs tgs2 h
  rcases List.mem_append.mp (hperm.mem_iff.mp hm) with h1 | h2
  · exact Or.inl h1
  · simp only [List.mem_singleton] at h2
    exact Or.inr ⟨e, he, h2⟩

theorem dictAssignGroup_mem (tgs : List (Nat × List Member)) (k : Nat) (g : List Member) :
    ∀ m ∈ Members (dictAssignGroup tgs k g), m ∈ Members tgs ∨ m ∈ g := by
  intro m hm
  rw [dictAssignGroup] at hm
  split at hm
  · simp only [Members, List.mem_flatMap] at hm
    obtain ⟨p, hp, hmp⟩ := hm
    obtain ⟨q, hq, hqp⟩ := List.mem_map.mp hp
    by_cases hk : q.1 == k
    · rw [if_pos hk] at hqp
      rw [← hqp] at hmp
      exact Or.inr hmp
    · rw [if_neg hk] at hqp
      subst hqp
      exact Or.inl (by
        simp only [Members, List.mem_flatMap]
        exact ⟨q, hq, hmp⟩)
  · rw [Members_append] at hm
    rcases List.mem_append.mp hm with h1 | h2
    · exact Or.inl h1
    · rw [Members_cons, Members_nil, List.append_nil] at h2
      exact Or.inr h2

/-- Member-level membership after one grouping step: old members, the
new token with the flag False (fresh group), or the new token flagged
against some overlapping old member. -/
theorem groupStep_mem (tgs : List (Nat × List Member)) (ent : Entry) :
    ∀ m ∈ Members (groupStep tgs ent), m ∈ Members tgs ∨
      m = ⟨ent.string_note, ent.pos, ent.fret, false⟩ ∨
      ∃ ex ∈ Members tgs,
        m = ⟨ent.string_note, ent.pos, ent.fret, uncertainFlag ent.fret ex.fret⟩ := by
  intro m hm
  rw [groupStep] at hm
  cases hj : joinFirstGroup tgs ent with
  | some tgs2 =>
    rw [hj] at hm
    rcases joinFirstGroup_mem ent tgs tgs2 hj m hm with h1 | h2
    · exact Or.inl h1
    · exact Or.inr (Or.inr h2)
  | none =>
    rw [hj] at hm
    rcases dictAssignGroup_mem tgs ent.pos _ m hm with h1 | h2
    · exact Or.inl h1
    · simp only [List.mem_singleton] at h2
      exact Or.inr (Or.inl h2)

theorem posOverlap_of_start_eq (f e : Fret) (h : f.start = e.start) :
    posOverlap f e = true := by
  simp [posOverlap, h]

/-- One grouping step preserves the founder invariant (every group
holds a member whose token starts at the group's key) and adds exactly
the processed entry to the members, up to permutation and flags. -/
theorem groupStep_founders_perm (tgs : List (Nat × List Member)) (ent : Entry)
    (hf : ∀ kg ∈ tgs, ∃ m ∈ kg.2, m.fret.start = kg.1)
    (hpos : ent.pos = ent.fret.start) :
    (∀ kg ∈ groupStep tgs ent, ∃ m ∈ kg.2, m.fret.start = kg.1) ∧
    ((Members (groupStep tgs ent)).map stripMember).Perm
      ((Members tgs).map stripMember ++ [ent]) := by
  cases hj : joinFirstGroup tgs ent with
  | some tgs2 =>
    have hstep : groupStep tgs ent = tgs2 := by rw [groupStep, hj]
    rw [hstep]
    constructor
    · intro kg hkg
      rcases joinFirstGroup_groups ent tgs tgs2 hj kg hkg with h1 | ⟨kg0, hkg0, hk, nm, hg⟩
      · exact hf kg h1
      · obtain ⟨m, hm, hms⟩ := hf kg0 hkg0
        exact ⟨m, by rw [hg]; exact List.mem_append_left _ hm, by rw [hk]; exact hms⟩
    · obtain ⟨e, he, hov, hperm⟩ := joinFirstGroup_some ent tgs tgs2 hj
      have hp2 := hperm.map stripMember
      rw [List.map_append] at hp2
      simpa using hp2
  | none =>
    have hany : tgs.any (fun p => p.1 == ent.pos) = false := by
      by_contra hc
      rw [Bool.not_eq_false] at hc
      obtain ⟨p, hp, hpk⟩ := List.any_eq_true.mp hc
      obtain ⟨m, hm, hms⟩ := hf p hp
      have hovf := joinFirstGroup_none ent tgs hj p hp m hm
      have heq : ent.fret.start = m.fret.start := by
        have hk : p.1 = ent.pos := by
          simpa using hpk
        rw [hms, hk, hpos]
      rw [posOverlap_of_start_eq ent.fret m.fret heq] at hovf
      simp at hovf
    have hstep : groupStep tgs ent =
        tgs ++ [(ent.pos, [⟨ent.string_note, ent.pos, ent.fret, false⟩])] := by
      rw [groupStep, hj, dictAssignGroup, if_neg (by rw [hany]; simp)]
    rw [hstep]
    constructor
    · intro kg hkg
      rcases List.mem_append.mp hkg with h1 | h2
      · exact hf kg h1
      · simp only [List.mem_singleton] at h2
        subst h2
        exact ⟨_, List.mem_singleton_self _, hpos.symm⟩
    · rw [Members_append, Members_cons, Members_nil, List.append_nil, List.map_append]
      exact List.Perm.refl _

/-- Folding the grouper over a well-keyed entry list preserves the
founder invariant and yields members that are a permutation of the
starting members plus the processed entries. -/
theorem fold_founders_perm :
    ∀ (L : List Entry) (tgs : List (Nat × List Member)),
      (∀ e ∈ L, e.pos = e.fret.start) →
      (∀ kg ∈ tgs, ∃ m ∈ kg.2, m.fret.start = kg.1) →
      (∀ kg ∈ L.foldl groupStep tgs, ∃ m ∈ kg.2, m.fret.start = kg.1) ∧
      ((Members (L.foldl groupStep tgs)).map stripMember).Perm
        ((Members tgs).map stripMember ++ L) := by
  intro L
  induction L with
  | nil =>
    intro tgs _ hf
    exact ⟨hf, by simpa using List.Perm.refl ((Members tgs).map stripMember)⟩
  | cons e L' ih =>
    intro tgs hwf hf
    obtain ⟨hf2, hperm2⟩ :=
      groupStep_founders_perm tgs e hf (hwf e (List.mem_cons_self _ _))
    obtain ⟨hf3, hperm3⟩ :=
      ih (groupStep tgs e) (fun x hx => hwf x (List.mem_cons_of_mem _ hx)) hf2
    rw [List.foldl_cons]
    refine ⟨hf3, ?_⟩
    refine hperm3.trans ?_
    refine (hperm2.append_right L').trans ?_
    rw [List.append_assoc]
    exact List.Perm.refl _

theorem allFrets_wf (notedict : List (PyStr × List (Nat × Fret)))
    (h : WFNotedict notedict) :
    ∀ e ∈ allFrets notedict, e.pos = e.fret.start := by
  intro e he
  simp only [allFrets, List.mem_flatMap, List.mem_map] at he
  obtain ⟨p, hp, q, hq, rfl⟩ := he
  exact h p hp q hq

/-- Folding the grouper over a sorted, well-keyed entry list never
sets an uncertain flag: tokens are processed in ascending start order,
so a new token never starts strictly before an existing member. -/
theorem fold_flags :
    ∀ (L : List Entry) (tgs : List (Nat × List Member)),
      List.Sorted entryLe L →
      (∀ e ∈ L, e.pos = e.fret.start) →
      (∀ m ∈ Members tgs, m.uncertain = false ∧ ∀ e ∈ L, m.fret.start ≤ e.pos) →
      ∀ m ∈ Members (L.foldl groupStep tgs), m.uncertain = false := by
  intro L
  induction L with
  | nil =>
    intro tgs _ _ hinv m hm
    exact (hinv m hm).1
  | cons e L' ih =>
    intro tgs hsort hwf hinv
    rw [List.foldl_cons]
    have hsort' := List.sorted_cons.mp hsort
    apply ih (groupStep tgs e) hsort'.2 (fun x hx => hwf x (List.mem_cons_of_mem _ hx))
    intro m hm
    rcases groupStep_mem tgs e m hm with hold | hnew | ⟨ex, hex, hflag⟩
    · obtain ⟨hfl, hbd⟩ := hinv m hold
      exact ⟨hfl, fun e' he' => hbd e' (List.mem_cons_of_mem _ he')⟩
    · subst hnew
      refine ⟨rfl, ?_⟩
      intro e' he'
      show e.fret.start ≤ e'.pos
      rw [← hwf e (List.mem_cons_self _ _)]
      exact hsort'.1 e' he'
    · subst hflag
      obtain ⟨-, hbd⟩ := hinv ex hex
      have hle : ex.fret.start ≤ e.fret.start := by
        rw [← hwf e (List.mem_cons_self _ _)]
        exact hbd e (List.mem_cons_self _ _)
      constructor
      · show uncertainFlag e.fret ex.fret = false
        simp [uncertainFlag, Nat.not_lt.mpr hle]
      · intro e' he'
        show e.fret.start ≤ e'.pos
        rw [← hwf e (List.mem_cons_self _ _)]
        exact hsort'.1 e' he'

theorem findallRuns_mem (p : Char → Bool) (ln : PyStr) (s : Nat) (info : Fret)
    (h : (s, info) ∈ findallRuns p ln) :
    s < ln.length ∧ isRunStart p ln s = true ∧ info = tokenAt p ln s := by
  simp only [findallRuns, List.mem_filterMap, List.mem_range] at h
  obtain ⟨x, hx, hxe⟩ := h
  by_cases hrs : isRunStart p ln x
  · rw [if_pos hrs] at hxe
    have h1 : x = s := congrArg Prod.fst (Option.some_injective _ hxe)
    have h2 : tokenAt p ln x = info := congrArg Prod.snd (Option.some_injective _ hxe)
    subst h1
    exact ⟨hx, hrs, h2.symm⟩
  · rw [if_neg hrs] at hxe
    simp at hxe

theorem findallRuns_start (p : Char → Bool) (ln : PyStr) (s : Nat) (info : Fret)
    (h : (s, info) ∈ findallRuns p ln) : info.start = s := by
  obtain ⟨-, -, h3⟩ := findallRuns_mem p ln s info h
  rw [h3]
  rfl

theorem addTechniquesFromLine_mem (ln : PyStr) :
    ∀ (L : List (Nat × Fret)) (d : List (Nat × Fret)) (q : Nat × Fret),
      q ∈ L.foldl (fun d sp => if d.any (fun r => r.1 == sp.1) then d else d ++ [sp]) d →
      q ∈ d ∨ q ∈ L := by
  intro L
  induction L with
  | nil =>
    intro d q hq
    exact Or.inl hq
  | cons sp rest ih =>
    intro d q hq
    rw [List.foldl_cons] at hq
    rcases ih _ q hq with h1 | h2
    · by_cases hc : d.any (fun r => r.1 == sp.1)
      · rw [if_pos hc] at h1
        exact Or.inl h1
      · rw [if_neg hc] at h1
        rcases List.mem_append.mp h1 with h3 | h4
        · exact Or.inl h3
        · simp only [List.mem_singleton] at h4
          exact Or.inr (h4 ▸ List.mem_cons_self _ _)
    · exact Or.inr (List.mem_cons_of_mem _ h2)

theorem extract_notes_wf (tabdict : List (PyStr × PyStr)) (st : Settings) :
    WFNotedict (extract_notes tabdict st).1 := by
  intro p hp q hq
  simp only [extract_notes, List.mem_map] at hp
  obtain ⟨pd, hpd, rfl⟩ := hp
  simp only at hq
  by_cases ht : st.write_techniques = true
  · rw [if_pos ht] at hq
    rcases addTechniquesFromLine_mem pd.2 _ _ q hq with h1 | h2
    · exact (findallRuns_start Char.isDigit pd.2 q.1 q.2 h1).symm
    · exact (findallRuns_start techChar pd.2 q.1 q.2 h2).symm
  · rw [if_neg ht] at hq
    exact (findallRuns_start Char.isDigit pd.2 q.1 q.2 hq).symm

/-- Claim C1: notedicts produced by the tokenizer key every token by
its start column, and for every such notedict the timing grouping is a
partition of the tokens: the members of all groups, with their flags
forgotten, are a permutation of all tokens of all strings — no token
is duplicated and none is dropped (in particular, opening a new group
at a token's start column never overwrites an existing group, since a
group keyed at that column would have offered an overlapping member). -/
theorem C1_grouping_partition :
    (∀ (tabdict : List (PyStr × PyStr)) (st : Settings),
      WFNotedict (extract_notes tabdict st).1) ∧
    (∀ notedict : List (PyStr × List (Nat × Fret)), WFNotedict notedict →
      ((Members (group_by_timing notedict)).map stripMember).Perm (allFrets notedict)) := by
  refine ⟨extract_notes_wf, ?_⟩
  intro notedict hwf
  rw [group_by_timing]
  have hwf2 : ∀ e ∈ (allFrets notedict).insertionSort entryLe, e.pos = e.fret.start := by
    intro e he
    exact allFrets_wf notedict hwf e ((List.perm_insertionSort entryLe _).mem_iff.mp he)
  obtain ⟨-, hperm⟩ :=
    fold_founders_perm ((allFrets notedict).insertionSort entryLe) [] hwf2 (by simp)
  refine hperm.trans ?_
  have : ((Members ([] : List (Nat × List Member))).map stripMember) = [] := rfl
  rw [this, List.nil_append]
  exact List.perm_insertionSort entryLe _

/-- Witness for claim C1 at a concrete tokenizer-produced input. -/
theorem C1_witness :
    ((Members (group_by_timing
        [(("E4").toList, fretsFromLine ("--12-0".toList))])).map stripMember).Perm
      (allFrets [(("E4").toList, fretsFromLine ("--12-0".toList))]) :=
  C1_grouping_partition.2 [(("E4").toList, fretsFromLine ("--12-0".toList))] (by decide)

/-- Claim C9: because group_by_timing processes tokens in ascending
start-column order, a token is never compared against an
already-grouped member that starts strictly after it, so the uncertain
flag of every member of every group is False, and hence the condition
under which format_notedict appends the uncertainty marker is never
met: addUncertainMark leaves every rendered cluster string unchanged. -/
theorem C9_no_uncertainty (notedict : List (PyStr × List (Nat × Fret)))
    (hwf : WFNotedict notedict) :
    (∀ kg ∈ group_by_timing notedict, ∀ m ∈ kg.2, m.uncertain = false) ∧
    (∀ kg ∈ group_by_timing notedict, ∀ cs : PyStr,
      addUncertainMark (kg.2.any (fun m => m.uncertain)) cs = cs) := by
  have hmem : ∀ m ∈ Members (group_by_timing notedict), m.uncertain = false := by
    rw [group_by_timing]
    apply fold_flags ((allFrets notedict).insertionSort entryLe) []
      (List.sorted_insertionSort entryLe _)
      (fun e he =>
        allFrets_wf notedict hwf e ((List.perm_insertionSort entryLe _).mem_iff.mp he))
    intro m hm
    simp [Members] at hm
  have hflags : ∀ kg ∈ group_by_timing notedict, ∀ m ∈ kg.2, m.uncertain = false := by
    intro kg hkg m hm
    exact hmem m (by
      simp only [Members, List.mem_flatMap]
      exact ⟨kg, hkg, hm⟩)
  refine ⟨hflags, ?_⟩
  intro kg hkg cs
  have hany : kg.2.any (fun m => m.uncertain) = false := by
    rw [List.any_eq_false]
    intro m hm
    simp [hflags kg hkg m hm]
  rw [addUncertainMark, hany]
  simp

/-- Witness for claim C9 at a concrete input. -/
theorem C9_witness :
    (∀ kg ∈ group_by_timing [(("E4").toList, fretsFromLine ("--12-0".toList))],
      ∀ m ∈ kg.2, m.uncertain = false) ∧
    (∀ kg ∈ group_by_timing [(("E4").toList, fretsFromLine ("--12-0".toList))],
      ∀ cs : PyStr, addUncertainMark (kg.2.any (fun m => m.uncertain)) cs = cs) :=
  C9_no_uncertainty [(("E4").toList, fretsFromLine ("--12-0".toList))] (by decide)

theorem fold_ne_nil :
    ∀ (L : List Entry) (tgs : List (Nat × List Member)),
      (∀ kg ∈ tgs, kg.2 ≠ []) → ∀ kg ∈ L.foldl groupStep tgs, kg.2 ≠ [] := by
  intro L
  induction L with
  | nil => exact fun tgs h => h
  | cons e L' ih =>
    intro tgs h
    rw [List.foldl_cons]
    apply ih
    intro kg hkg
    rw [groupStep] at hkg
    cases hj : joinFirstGroup tgs e with
    | some tgs2 =>
      rw [hj] at hkg
      rcases joinFirstGroup_groups e tgs tgs2 hj kg hkg with h1 | ⟨kg0, hkg0, -, nm, hg⟩
      · exact h kg h1
      · rw [hg]
        simp
    | none =>
      rw [hj] at hkg
      rw [dictAssignGroup] at hkg
      by_cases hc2 : tgs.any (fun p => p.1 == e.pos) = true
      · rw [if_pos hc2] at hkg
        obtain ⟨q, hq, hqe⟩ := List.mem_map.mp hkg
        by_cases hc : q.1 == e.pos
        · rw [if_pos hc] at hqe
          rw [← hqe]
          simp
        · rw [if_neg hc] at hqe
          exact hqe ▸ h q hq
      · rw [if_neg hc2] at hkg
        rcases List.mem_append.mp hkg with h1 | h2
        · exact h kg h1
        · simp only [List.mem_singleton] at h2
          rw [h2]
          simp

theorem clusterFold_length_aux (st : Settings) :
    ∀ (group : List Member) (acc res : List PyStr × Bool × List Nat),
      group.foldlM (clusterStep st) acc = some res →
      res.1.length = acc.1.length + group.length := by
  intro group
  induction group with
  | nil =>
    intro acc res h
    simp only [List.foldlM_nil] at h
    have hres : acc = res := by simpa using h
    rw [← hres]
    simp
  | cons m rest ih =>
    intro acc res h
    rw [List.foldlM_cons] at h
    cases hg : GetNote m.string_note m.fret.value st with
    | none =>
      rw [clusterStep, hg] at h
      simp at h
    | some nm =>
      rw [clusterStep, hg] at h
      have h2 := ih (acc.1 ++ [nm], acc.2.1 || m.uncertain,
        acc.2.2 ++ List.range' m.fret.start (m.fret.endp + 1 - m.fret.start)) res
        (by simpa using h)
      simp only [List.length_append, List.length_cons, List.length_nil] at h2 ⊢
      omega

/-- Claim C10: every timing group returned by group_by_timing holds at
least one member, and the chord list that format_notedict's member
loop builds for a group has exactly one resolved string per member, so
the zero-member placeholder branch of the renderer (the bare dash) is
unreachable: every emitted cluster rendering covers a non-empty chord
list. -/
theorem C10_nonempty_clusters (notedict : List (PyStr × List (Nat × Fret)))
    (kg : Nat × List Member) (hkg : kg ∈ group_by_timing notedict) :
    kg.2 ≠ [] ∧
    ∀ (st : Settings) (chord : List PyStr) (unc : Bool) (cov : List Nat),
      clusterFold st kg.2 = some (chord, unc, cov) →
      chord.length = kg.2.length ∧ chord ≠ [] := by
  rw [group_by_timing] at hkg
  have hne : kg.2 ≠ [] := fold_ne_nil _ [] (by simp) kg hkg
  refine ⟨hne, ?_⟩
  intro st chord unc cov h
  rw [clusterFold] at h
  have hl := clusterFold_length_aux st kg.2 ([], false, []) (chord, unc, cov) h
  simp only [List.length_nil, Nat.zero_add] at hl
  refine ⟨hl, ?_⟩
  intro h0
  rw [h0] at hl
  simp only [List.length_nil] at hl
  exact hne (List.length_eq_zero.mp hl.symm)

/-- Witness for claim C10 at a concrete input. -/
theorem C10_witness :
    ((0, [⟨("E4").toList, 0, ⟨("0").toList, 0, 0, 1⟩, false⟩]) :
        Nat × List Member).2 ≠ [] ∧
    ([("E4").toList].length =
      ((0, [⟨("E4").toList, 0, ⟨("0").toList, 0, 0, 1⟩, false⟩]) :
        Nat × List Member).2.length ∧ ([("E4").toList] : List PyStr) ≠ []) := by
  have h := C10_nonempty_clusters [(("E4").toList, fretsFromLine ("0".toList))]
    (0, [⟨("E4").toList, 0, ⟨("0").toList, 0, 0, 1⟩, false⟩]) (by decide)
  exact ⟨h.1, h.2 defaultSettings [("E4").toList] false [0] (by decide)⟩

/-! ## Tokenizer lemmas and claim C4 -/

theorem takeWhile_take (p : Char → Bool) :
    ∀ l : List Char, l.takeWhile p = l.take (l.takeWhile p).length := by
  intro l
  induction l with
  | nil => rfl
  | cons a t ih =>
    rw [List.takeWhile_cons]
    by_cases hp : p a
    · rw [if_pos hp]
      simp only [List.length_cons, List.take_succ_cons]
      rw [← ih]
    · rw [if_neg hp]
      rfl

theorem takeWhile_all (p : Char → Bool) : ∀ l : List Char, (l.takeWhile p).all p = true := by
  intro l
  induction l with
  | nil => rfl
  | cons a t ih =>
    rw [List.takeWhile_cons]
    by_cases hp : p a
    · rw [if_pos hp]
      simp [hp, ih]
    · rw [if_neg hp]
      rfl

theorem takeWhile_boundary (p : Char → Bool) :
    ∀ l : List Char, ((l[(l.takeWhile p).length]?).elim true (fun c => !p c)) = true := by
  intro l
  induction l with
  | nil => rfl
  | cons a t ih =>
    rw [List.takeWhile_cons]
    by_cases hp : p a
    · rw [if_pos hp]
      simp only [List.length_cons, List.getElem?_cons_succ]
      exact ih
    · rw [if_neg hp]
      simp [hp]

theorem takeWhile_eq_take (p : Char → Bool) :
    ∀ (l : List Char) (n : Nat), (l.take n).all p = true →
      ((l[n]?).elim true (fun c => !p c)) = true → l.takeWhile p = l.take n := by
  intro l
  induction l with
  | nil =>
    intro n _ _
    simp
  | cons a t ih =>
    intro n hall hb
    cases n with
    | zero =>
      simp only [List.getElem?_cons_zero, Option.elim] at hb
      rw [List.takeWhile_cons, if_neg (by simpa using hb)]
      simp
    | succ n =>
      rw [List.take_succ_cons, List.all_cons, Bool.and_eq_true] at hall
      rw [List.takeWhile_cons, if_pos hall.1, List.take_succ_cons]
      rw [ih n hall.2 (by simpa using hb)]

theorem isRunStart_head (p : Char → Bool) (ln : PyStr) (s : Nat)
    (h : isRunStart p ln s = true) : ∃ c, ln[s]? = some c ∧ p c = true := by
  rw [isRunStart, Bool.and_eq_true] at h
  obtain ⟨h1, -⟩ := h
  cases hc : ln[s]? with
  | none =>
    rw [hc] at h1
    simp [Option.elim] at h1
  | some c =>
    rw [hc] at h1
    exact ⟨c, rfl, by simpa using h1⟩

theorem isRunStart_left (p : Char → Bool) (ln : PyStr) (s : Nat)
    (h : isRunStart p ln s = true) :
    s = 0 ∨ ((ln[s - 1]?).elim false (fun c => !p c)) = true := by
  rw [isRunStart, Bool.and_eq_true] at h
  obtain ⟨-, h2⟩ := h
  simp only [Bool.or_eq_true] at h2
  rcases h2 with h3 | h3
  · exact Or.inl (by simpa using h3)
  · exact Or.inr h3

/-- The token built at a run start is a recorded maximal run. -/
theorem tokenAt_isMaxRun (p : Char → Bool) (ln : PyStr) (s : Nat)
    (hrs : isRunStart p ln s = true) : IsMaxRun p ln s (tokenAt p ln s) := by
  obtain ⟨c, hc, hpc⟩ := isRunStart_head p ln s hrs
  have hd0 : (ln.drop s)[0]? = some c := by
    rw [List.getElem?_drop]
    simpa using hc
  obtain ⟨t, ht⟩ : ∃ t, ln.drop s = c :: t := by
    cases hd : ln.drop s with
    | nil =>
      rw [hd] at hd0
      simp at hd0
    | cons a t =>
      rw [hd] at hd0
      simp only [List.getElem?_cons_zero] at hd0
      have : a = c := Option.some_injective _ hd0
      exact ⟨t, by rw [this]⟩
  have htne : (ln.drop s).takeWhile p ≠ [] := by
    rw [ht, List.takeWhile_cons, if_pos hpc]
    simp
  refine ⟨rfl, htne, ?_, ?_, rfl, rfl, isRunStart_left p ln s hrs, ?_⟩
  · exact takeWhile_take p (ln.drop s)
  · exact takeWhile_all p (ln.drop s)
  · have hb := takeWhile_boundary p (ln.drop s)
    rw [List.getElem?_drop] at hb
    exact hb

/-- Conversely, every recorded maximal run is the token built at its
start column, and that column really starts a run. -/
theorem isMaxRun_eq_tokenAt (p : Char → Bool) (ln : PyStr) (s : Nat) (info : Fret)
    (h : IsMaxRun p ln s info) :
    s < ln.length ∧ isRunStart p ln s = true ∧ info = tokenAt p ln s := by
  obtain ⟨hstart, hne, hslice, hall, hend, hwidth, hleft, hright⟩ := h
  have hlen : s < ln.length := by
    by_contra hge
    push_neg at hge
    have hdrop : ln.drop s = [] := List.drop_eq_nil_of_le hge
    rw [hdrop, List.take_nil] at hslice
    exact hne hslice
  have hvlen : 0 < info.value.length := List.length_pos.mpr hne
  obtain ⟨c, t, hct⟩ := List.exists_cons_of_ne_nil hne
  have hc0 : (ln.drop s)[0]? = some c := by
    have h1 : info.value[0]? = some c := by
      rw [hct]
      simp
    rw [hslice, List.getElem?_take, if_pos hvlen] at h1
    exact h1
  have hcln : ln[s]? = some c := by
    rw [List.getElem?_drop] at hc0
    simpa using hc0
  have hpc : p c = true := by
    have : c ∈ info.value := by
      rw [hct]
      exact List.mem_cons_self _ _
    exact (List.all_eq_true.mp hall) c this
  have hrs : isRunStart p ln s = true := by
    rw [isRunStart, Bool.and_eq_true]
    constructor
    · rw [hcln]
      simpa using hpc
    · rcases hleft with h0 | hbd
      · rw [h0]
        simp
      · rw [Bool.or_eq_true]
        exact Or.inr hbd
  have htw : (ln.drop s).takeWhile p = (ln.drop s).take info.value.length := by
    apply takeWhile_eq_take
    · rw [← hslice]
      exact hall
    · rw [List.getElem?_drop]
      exact hright
  have hval : (ln.drop s).takeWhile p = info.value := by
    rw [htw, ← hslice]
  refine ⟨hlen, hrs, ?_⟩
  obtain ⟨v, st, e, w⟩ := info
  simp only at hval hstart hend hwidth
  rw [tokenAt]
  simp only [hval]
  simp only at hne
  subst hstart
  subst hend
  subst hwidth
  rfl

/-- Membership in the run finder is exactly the recorded-maximal-run
property. -/
theorem findallRuns_iff (p : Char → Bool) (ln : PyStr) (s : Nat) (info : Fret) :
    (s, info) ∈ findallRuns p ln ↔ IsMaxRun p ln s info := by
  constructor
  · intro h
    obtain ⟨-, hrs, hinfo⟩ := findallRuns_mem p ln s info h
    rw [hinfo]
    exact tokenAt_isMaxRun p ln s hrs
  · intro h
    obtain ⟨hlt, hrs, hinfo⟩ := isMaxRun_eq_tokenAt p ln s info h
    rw [hinfo]
    simp only [findallRuns, List.mem_filterMap, List.mem_range]
    exact ⟨s, hlt, by rw [if_pos hrs]⟩

theorem tech_fret_disjoint (ln : PyStr) (s : Nat) (info : Fret)
    (hmem : (s, info) ∈ findallRuns techChar ln) :
    (fretsFromLine ln).any (fun q => q.1 == s) = false := by
  obtain ⟨-, hrs, -⟩ := findallRuns_mem techChar ln s info hmem
  obtain ⟨c, hc, hpc⟩ := isRunStart_head techChar ln s hrs
  by_contra hany
  rw [Bool.not_eq_false] at hany
  obtain ⟨q, hq, hbeq⟩ := List.any_eq_true.mp hany
  have hqs : q.1 = s := by simpa using hbeq
  have hmem2 : (q.1, q.2) ∈ fretsFromLine ln := hq
  rw [fretsFromLine] at hmem2
  obtain ⟨-, hrs2, -⟩ := findallRuns_mem Char.isDigit ln q.1 q.2 hmem2
  rw [hqs] at hrs2
  obtain ⟨c2, hc2, hpc2⟩ := isRunStart_head Char.isDigit ln s hrs2
  rw [hc] at hc2
  have hcc : c = c2 := Option.some_injective _ hc2
  rw [techChar, Bool.and_eq_true, Bool.and_eq_true] at hpc
  have hnd : (!c.isDigit) = true := hpc.1.2
  rw [hcc, hpc2] at hnd
  simp at hnd

theorem findallRuns_keys_nodup (p : Char → Bool) (ln : PyStr) :
    ((findallRuns p ln).map Prod.fst).Nodup := by
  rw [findallRuns, List.map_filterMap]
  have hsimp : ∀ x : Nat,
      ((if isRunStart p ln x then some (x, tokenAt p ln x) else none).map Prod.fst)
        = if isRunStart p ln x then some x else none := by
    intro x
    split <;> rfl
  simp only [hsimp]
  apply List.Nodup.filterMap
  · intro a a' b hb hb'
    have ha : b = a := by
      by_cases h : isRunStart p ln a
      · rw [if_pos h] at hb
        simpa using hb.symm
      · rw [if_neg h] at hb
        simp at hb
    have ha' : b = a' := by
      by_cases h : isRunStart p ln a'
      · rw [if_pos h] at hb'
        simpa using hb'.symm
      · rw [if_neg h] at hb'
        simp at hb'
    rw [← ha, ← ha']
  · exact List.nodup_range _

theorem foldl_addTech_preserve :
    ∀ (L : List (Nat × Fret)) (d : List (Nat × Fret)) (q : Nat × Fret), q ∈ d →
      q ∈ L.foldl (fun d sp => if d.any (fun r => r.1 == sp.1) then d else d ++ [sp]) d := by
  intro L
  induction L with
  | nil => exact fun d q h => h
  | cons sp rest ih =>
    intro d q hq
    rw [List.foldl_cons]
    apply ih
    by_cases hc : d.any (fun r => r.1 == sp.1)
    · rw [if_pos hc]
      exact hq
    · rw [if_neg hc]
      exact List.mem_append_left _ hq

theorem foldl_addTech_adds :
    ∀ (L : List (Nat × Fret)) (d : List (Nat × Fret)) (s : Nat) (info : Fret),
      (s, info) ∈ L → (L.map Prod.fst).Nodup → d.any (fun r => r.1 == s) = false →
      (s, info) ∈ L.foldl (fun d sp => if d.any (fun r => r.1 == sp.1) then d else d ++ [sp]) d := by
  intro L
  induction L with
  | nil =>
    intro d s info h
    simp at h
  | cons sp rest ih =>
    intro d s info hmem hnodup hd
    rw [List.map_cons, List.nodup_cons] at hnodup
    rw [List.foldl_cons]
    rcases List.mem_cons.mp hmem with heq | hrest
    · have hsp : sp.1 = s := by rw [← heq]
      rw [if_neg (by rw [hsp, hd]; simp)]
      apply foldl_addTech_preserve
      rw [← heq]
      exact List.mem_append_right _ (List.mem_singleton_self _)
    · have hs_in : s ∈ rest.map Prod.fst := by
        exact List.mem_map.mpr ⟨(s, info), hrest, rfl⟩
      have hne : sp.1 ≠ s := fun hcontra => hnodup.1 (hcontra ▸ hs_in)
      apply ih _ s info hrest hnodup.2
      by_cases hc : d.any (fun r => r.1 == sp.1)
      · rw [if_pos hc]
        exact hd
      · rw [if_neg hc]
        rw [List.any_append, hd, Bool.false_or]
        simp [hne]

/-- Claim C4, amended: with technique inclusion enabled the tokenizer
emits exactly (a) the maximal runs of decimal digits as fret tokens
and (b) the maximal runs of characters that are none of hyphen, digit
or plus sign as technique tokens, the latter only at start columns not
already keyed by a fret token; every token records its 0-based start
column, inclusive end column, width and raw text.  (The source regex
character class excludes the plus sign, which the claim's wording does
not.) -/
theorem C4_tokenizer_runs (ln : PyStr) (s : Nat) (info : Fret) :
    (s, info) ∈ addTechniquesFromLine ln (fretsFromLine ln) ↔
      (IsMaxRun Char.isDigit ln s info ∨
       (IsMaxRun techChar ln s info ∧
        (fretsFromLine ln).any (fun q => q.1 == s) = false)) := by
  constructor
  · intro h
    rcases addTechniquesFromLine_mem ln (findallRuns techChar ln) (fretsFromLine ln)
        (s, info) h with h1 | h2
    · exact Or.inl ((findallRuns_iff Char.isDigit ln s info).mp h1)
    · exact Or.inr ⟨(findallRuns_iff techChar ln s info).mp h2,
        tech_fret_disjoint ln s info h2⟩
  · intro h
    rcases h with h1 | ⟨h2, hnf⟩
    · rw [addTechniquesFromLine]
      apply foldl_addTech_preserve
      exact (findallRuns_iff Char.isDigit ln s info).mpr h1
    · rw [addTechniquesFromLine]
      exact foldl_addTech_adds (findallRuns techChar ln) (fretsFromLine ln) s info
        ((findallRuns_iff techChar ln s info).mpr h2)
        (findallRuns_keys_nodup techChar ln) hnf

/-- Counterexample to claim C4 as stated: on the line "+" the claim's
character class (neither hyphen nor digit) makes the plus sign at
column 0 a maximal technique run whose start no fret token claims
(there are no fret tokens at all), yet the tokenizer emits no token,
because the source's regex character class also excludes the plus
sign. -/
theorem C4_counterexample :
    addTechniquesFromLine ['+'] (fretsFromLine ['+']) = [] ∧
    fretsFromLine ['+'] = [] ∧
    IsMaxRun claimTechChar ['+'] 0 ⟨['+'], 0, 0, 1⟩ := by
  refine ⟨by decide, by decide, by decide⟩

/-! ## Document-driver lemmas and claim C5 -/

/-- A line without the tuning separator is passed through unchanged
when no tab block is open. -/
theorem procLine_no_sep (st : Settings) (s : DocState) (ln : PyStr)
    (h : pyContains ln st.tuning_separator = false) (htab : s.tab = false) :
    procLine st s ln = some { s with resultdoc := s.resultdoc ++ [ln] } := by
  unfold procLine
  rw [h]
  simp [htab]

theorem fold_pass_through :
    ∀ (doc : List PyStr) (st : Settings) (s : DocState), s.tab = false →
      (∀ ln ∈ doc, pyContains ln st.tuning_separator = false) →
      doc.foldlM (procLine st) s = some { s with resultdoc := s.resultdoc ++ doc } := by
  intro doc
  induction doc with
  | nil =>
    intro st s _ _
    simp
  | cons ln rest ih =>
    intro st s htab hnosep
    rw [List.foldlM_cons, procLine_no_sep st s ln (hnosep ln (List.mem_cons_self _ _)) htab]
    show rest.foldlM (procLine st) { s with resultdoc := s.resultdoc ++ [ln] } =
      some { s with resultdoc := s.resultdoc ++ (ln :: rest) }
    rw [ih st { s with resultdoc := s.resultdoc ++ [ln] } htab
      (fun x hx => hnosep x (List.mem_cons_of_mem _ hx))]
    simp

/-- With chord analysis off, a document none of whose lines contains
the tuning separator is returned unchanged. -/
theorem proces_doc_pass_through (doc : List PyStr) (st : Settings)
    (hca : st.chord_analysis = false)
    (hnosep : ∀ ln ∈ doc, pyContains ln st.tuning_separator = false) :
    proces_doc doc st = some doc := by
  unfold proces_doc
  rw [fold_pass_through doc st ⟨[], [], false, [], 0⟩ rfl hnosep]
  simp [hca]

/-- Claim C5, amended: with chord analysis off, re-running proces_doc
on the document it produced is a no-op provided the tuning separator
occurs in none of the produced lines (every such line is passed
through verbatim as a non-tab line).  With the default separator this
proviso fails: rendered note lines are wrapped in literal pipes, so
they do contain the separator and are re-parsed as unlabeled tab
lines (see the counterexample). -/
theorem C5_conditional_idempotence (doc out : List PyStr) (st : Settings)
    (hca : st.chord_analysis = false)
    (_hout : proces_doc doc st = some out)
    (hnosep : ∀ ln ∈ out, pyContains ln st.tuning_separator = false) :
    proces_doc out st = some out :=
  proces_doc_pass_through out st hca hnosep

/-- Counterexample to claim C5 as stated: with the default settings
(separator the pipe), processing one tab line yields the note line
"|E4|", which contains the separator, is re-parsed as an unlabeled tab
line on a second run, and comes back changed. -/
theorem C5_counterexample :
    proces_doc [("E|---0---|\n".toList)] defaultSettings = some [("|E4|\n".toList)] ∧
    proces_doc [("|E4|\n".toList)] defaultSettings = some [("|[E_G#4]|\n".toList)] ∧
    some [("|E4|\n".toList)] ≠ some [("|[E_G#4]|\n".toList)] := by
  refine ⟨by decide, by decide, by decide⟩

/-- Witness for the amended claim C5 at a concrete input: with the
separator set to a slash, the rendered output contains no separator
and reprocessing it is a no-op. -/
theorem C5_witness :
    proces_doc [("|E4|\n".toList)]
      { defaultSettings with tuning_separator := "/".toList } =
      some [("|E4|\n".toList)] :=
  C5_conditional_idempotence [("E/---0---/\n".toList)] [("|E4|\n".toList)]
    { defaultSettings with tuning_separator := "/".toList }
    rfl (by decide) (by decide)
